import Mathlib

/-!
A verification development for the NDA Guardian repository.

The Python sources (`main.py`, `document_store.py`, `nda_tools.py`) are
shallowly embedded: strings are lists of characters (`Chars`), Python dicts
with insertion order are association lists, machine floats used only for
comparisons and sums are rationals, and each regular expression used by the
source is embedded as a hand-written matcher implementing that pattern's
leftmost-match semantics (greedy quantifiers with the backtracking behaviour
worked out per pattern).
-/

set_option maxRecDepth 100000

abbrev Chars := List Char

/-- Python `str.split` / `\s` whitespace for the ASCII texts handled here. -/
def charIsWs (c : Char) : Bool :=
  c == ' ' || c == '\t' || c == '\n' || c == '\r' || c == '\x0b' || c == '\x0c'

def charIsUpper (c : Char) : Bool := 'A' ≤ c && c ≤ 'Z'

def charIsLower (c : Char) : Bool := 'a' ≤ c && c ≤ 'z'

def charIsDigit (c : Char) : Bool := '0' ≤ c && c ≤ '9'

def charIsAlpha (c : Char) : Bool := charIsUpper c || charIsLower c

/-- Python regex `\w` (ASCII): letters, digits, underscore. -/
def charIsWord (c : Char) : Bool := charIsAlpha c || charIsDigit c || c == '_'

/-- ASCII lowercasing, as Python `str.lower` acts on the repository's texts. -/
def charToLower (c : Char) : Char :=
  if charIsUpper c then Char.ofNat (c.toNat + 32) else c

def toLowerStr (s : Chars) : Chars := s.map charToLower

/-- Python `str.lstrip()` (no argument: whitespace). -/
def pyLStrip (s : Chars) : Chars := s.dropWhile charIsWs

/-- Drop from the right all characters satisfying `p`. -/
def rstripP (p : Char → Bool) (s : Chars) : Chars :=
  (s.reverse.dropWhile p).reverse

/-- Python `str.strip()` (no argument: whitespace on both sides). -/
def pyStrip (s : Chars) : Chars := rstripP charIsWs (s.dropWhile charIsWs)

/-- Python `str.rstrip(".,")`. -/
def rstripPunct (s : Chars) : Chars := rstripP (fun c => c == '.' || c == ',') s

/-- Python `str.strip("_")`. -/
def stripUnderscores (s : Chars) : Chars :=
  rstripP (fun c => c == '_') (s.dropWhile (fun c => c == '_'))

/-- Python `str.split("\n")`: split on every newline, keeping empty pieces. -/
def splitNl : Chars → List Chars
  | [] => [[]]
  | c :: cs =>
    if c == '\n' then [] :: splitNl cs
    else
      match splitNl cs with
      | [] => [[c]]
      | p :: ps => (c :: p) :: ps

/-- Python `"\n".join` and friends. -/
def joinWith (sep : Chars) (pieces : List Chars) : Chars :=
  List.intercalate sep pieces

/-- Python `" ".join`, recursively (for the word-count lemmas). -/
def joinSpace : List Chars → Chars
  | [] => []
  | [w] => w
  | w :: ws@(_ :: _) => w ++ ' ' :: joinSpace ws

/-- Accumulator-passing worker for Python's argumentless `str.split()`:
the option holds the reversed current word. -/
def pySplitWsAux : Option Chars → Chars → List Chars
  | none, [] => []
  | some w, [] => [w.reverse]
  | none, c :: cs =>
    if charIsWs c then pySplitWsAux none cs else pySplitWsAux (some [c]) cs
  | some w, c :: cs =>
    if charIsWs c then w.reverse :: pySplitWsAux none cs
    else pySplitWsAux (some (c :: w)) cs

/-- Python `str.split()`: split on whitespace runs, dropping empty pieces. -/
def pySplitWs (s : Chars) : List Chars := pySplitWsAux none s

/-- `word_count` in `nda_tools.py`: `len(text.split()) if text else 0`
(an empty text splits to the empty list, so the guard is redundant). -/
def word_count (s : Chars) : ℕ := (pySplitWs s).length

/-- Worker for `pyReplace`: scan left to right, replacing each occurrence
of `old` (nonempty here) and resuming after it.  The fuel argument only
makes the recursion structural (hence kernel-computable): every step
consumes at least one character, so with fuel `s.length` the zero-fuel
fallback (which returns the rest unchanged) is never reached. -/
def pyReplaceGo (old new : Chars) : ℕ → Chars → Chars
  | _, [] => []
  | 0, s => s
  | fuel + 1, c :: cs =>
    if old ≠ [] ∧ old.isPrefixOf (c :: cs) then
      new ++ pyReplaceGo old new fuel ((c :: cs).drop old.length)
    else
      c :: pyReplaceGo old new fuel cs

/-- Python `str.replace(old, new)`: replace left-to-right non-overlapping
occurrences; an empty `old` interleaves `new` around every character. -/
def pyReplace (s old new : Chars) : Chars :=
  if old.isEmpty then new ++ s.foldr (fun c acc => c :: (new ++ acc)) []
  else pyReplaceGo old new s.length s

/-- Python `str.rfind(sub)`: highest index where `sub` starts, else `-1`. -/
def pyRfind (s sub : Chars) : ℤ :=
  match (List.range (s.length + 1)).filter
      (fun i => sub.isPrefixOf (s.drop i)) |>.getLast? with
  | some i => (i : ℤ)
  | none => -1

/-- Generic leftmost regex search: try the pattern-specific matcher at every
start position, earliest success winning (Python `re.search`). -/
def searchO {α : Type} (tryAt : Chars → Option α) : Chars → Option α
  | [] => tryAt []
  | c :: cs =>
    match tryAt (c :: cs) with
    | some r => some r
    | none => searchO tryAt cs

/-- Contiguous-substring test (Python `sub in s`). -/
def isSubstr (sub : Chars) : Chars → Bool
  | [] => sub.isEmpty
  | c :: cs => sub.isPrefixOf (c :: cs) || isSubstr sub cs

/-- Case-insensitive literal containment (Python `re.search` of a literal
with `re.IGNORECASE`, ASCII). -/
def hasSubstrCI (s lit : Chars) : Bool :=
  isSubstr (toLowerStr lit) (toLowerStr s)

/- ------------------------------------------------------------------ -/
/- main.py — hybrid routing                                           -/
/- ------------------------------------------------------------------ -/

/-- A function call produced by an inference engine: name plus string
arguments (`{"name": ..., "arguments": {...}}` in the source). -/
structure ToolCall where
  name : Chars
  arguments : List (Chars × Chars)
deriving DecidableEq, Repr

/-- `CLOUD_REQUIRED_TOOLS` in `main.py`. -/
def CLOUD_REQUIRED_TOOLS : List Chars :=
  ["check_enforceability".data, "benchmark_clause".data]

/-- The JSON object a successful `cactus_complete` parse yields; each field
read with `raw.get(key, default)`, hence optional here. -/
structure RawLocalOutput where
  function_calls : Option (List ToolCall)
  total_time_ms : Option ℚ
  confidence : Option ℚ
  cloud_handoff : Option Bool
deriving DecidableEq, Repr

/-- The dict `generate_cactus` returns.  `cloud_handoff` is `none` exactly
when the key is absent (the malformed-output dict omits it). -/
structure LocalResult where
  function_calls : List ToolCall
  total_time_ms : ℚ
  confidence : ℚ
  cloud_handoff : Option Bool
deriving DecidableEq, Repr

/-- The dict `generate_cloud` returns (no confidence, no handoff flag). -/
structure RemoteResult where
  function_calls : List ToolCall
  total_time_ms : ℚ
deriving DecidableEq, Repr

/-- The dict `generate_hybrid` returns: optional fields mirror key
presence in the Python dicts on each path. -/
structure HybridResult where
  function_calls : List ToolCall
  total_time_ms : ℚ
  confidence : Option ℚ
  cloud_handoff : Option Bool
  local_confidence : Option ℚ
  source : Chars
deriving DecidableEq, Repr

/-- `generate_cactus` after the model call, parameterised by the parse of
the raw model output: `none` models a `json.JSONDecodeError`, in which case
the degraded zero-confidence, empty-call dict (without a `cloud_handoff`
key) is returned; otherwise each field is read with its `.get` default. -/
def generate_cactus (parsed : Option RawLocalOutput) : LocalResult :=
  match parsed with
  | none =>
    { function_calls := [], total_time_ms := 0, confidence := 0,
      cloud_handoff := none }
  | some raw =>
    { function_calls := raw.function_calls.getD []
      total_time_ms := raw.total_time_ms.getD 0
      confidence := raw.confidence.getD 0
      cloud_handoff := some (raw.cloud_handoff.getD false) }

/-- Python truthiness of `local.get("cloud_handoff")`. -/
def handoffSet (loc : LocalResult) : Bool := loc.cloud_handoff.getD false

/-- `any(c["name"] in CLOUD_REQUIRED_TOOLS for c in tool_calls)`. -/
def requiresCloud (calls : List ToolCall) : Bool :=
  calls.any (fun c => CLOUD_REQUIRED_TOOLS.contains c.name)

/-- The escalation dict assembled on every cloud path of `generate_hybrid`:
the remote result plus provenance, preserved local confidence, and summed
elapsed time. -/
def escalate (loc : LocalResult) (cloud : RemoteResult) (label : Chars) :
    HybridResult :=
  { function_calls := cloud.function_calls
    total_time_ms := cloud.total_time_ms + loc.total_time_ms
    confidence := none
    cloud_handoff := none
    local_confidence := some loc.confidence
    source := label }

/-- `generate_hybrid` from `main.py`, with the (network-bound) remote call
passed in as the result it would return.  The default
`confidence_threshold` is `0.72`. -/
def generate_hybrid (loc : LocalResult) (cloud : RemoteResult)
    (confidence_threshold : ℚ := 72 / 100) : HybridResult :=
  if handoffSet loc then
    escalate loc cloud "cloud (cactus handoff)".data
  else if requiresCloud loc.function_calls then
    escalate loc cloud "cloud (legal knowledge required)".data
  else if loc.confidence < confidence_threshold then
    escalate loc cloud "cloud (low confidence)".data
  else
    { function_calls := loc.function_calls
      total_time_ms := loc.total_time_ms
      confidence := some loc.confidence
      cloud_handoff := loc.cloud_handoff
      local_confidence := none
      source := "on-device".data }

/- ------------------------------------------------------------------ -/
/- document_store.py — clause segmentation                            -/
/- ------------------------------------------------------------------ -/

/-- The character class `[A-Z\s,()&/'-]` of the section-title patterns. -/
def titleClassChar (c : Char) : Bool :=
  charIsUpper c || charIsWs c || c == ',' || c == '(' || c == ')' ||
    c == '&' || c == '/' || c == '\'' || c == '-'

/-- Worker for `eatDotDigitGroups`; the fuel only makes the recursion
structural, every step consumes at least two characters. -/
def eatDotDigitGroupsGo : ℕ → Chars → Chars
  | fuel + 1, '.' :: c :: rest =>
    if charIsDigit c then eatDotDigitGroupsGo fuel (rest.dropWhile charIsDigit)
    else '.' :: c :: rest
  | _, s => s

/-- Consume a maximal `(?:\.\d+)*`: repeated literal dot followed by at
least one digit.  (Giving an iteration back can never rescue a failing
continuation here, since the returned dot is followed by a digit while
every continuation in the source patterns needs a non-digit, so the greedy
deterministic consumption is faithful.) -/
def eatDotDigitGroups (s : Chars) : Chars :=
  eatDotDigitGroupsGo s.length s

/-- `re.match(r"^\s*\d+(?:\.\d+)*\.?\s+[A-Z]", line)` from
`get_clause_summary`'s header filter, as a Boolean. -/
def reMatchHeaderNum (line : Chars) : Bool :=
  let r1 := line.dropWhile charIsWs
  let ds := r1.takeWhile charIsDigit
  if ds.isEmpty then false
  else
    let r2 := eatDotDigitGroups (r1.drop ds.length)
    let r3 := match r2 with
      | '.' :: t => t
      | _ => r2
    let w := r3.takeWhile charIsWs
    if w.isEmpty then false
    else
      match r3.drop w.length with
      | c :: _ => charIsUpper c
      | [] => false

/-- `re.match(r"^\s*[A-Z][A-Z\s,()&/'-]{6,}\s*$", line)` (the all-caps
title filter).  Whitespace lies inside the repeated class, so the match
succeeds exactly when, after leading whitespace, an uppercase letter is
followed by at least six characters of the class reaching the line end. -/
def reMatchCapsTitle (line : Chars) : Bool :=
  match line.dropWhile charIsWs with
  | c :: rest => charIsUpper c && rest.all titleClassChar && decide (6 ≤ rest.length)
  | [] => false

/-- `re.match(r"^(\d+(?:\.\d+)*)\.\s+([A-Z][A-Z\s,()&/'-]{3,})", section)`
from `load_document`, returning group 2 (the title text) on success. -/
def reMatchNumberedSection (s : Chars) : Option Chars :=
  let ds := s.takeWhile charIsDigit
  if ds.isEmpty then none
  else
    match eatDotDigitGroups (s.drop ds.length) with
    | '.' :: r2 =>
      let w := r2.takeWhile charIsWs
      if w.isEmpty then none
      else
        match r2.drop w.length with
        | c :: r3 =>
          if charIsUpper c then
            let run := r3.takeWhile titleClassChar
            if 3 ≤ run.length then some (c :: run) else none
          else none
        | [] => none
    | _ => none

/-- Worker for `searchNonCompete`, scanning an already-lowercased text. -/
def nonCompeteGo : Chars → Bool
  | [] => false
  | c :: cs =>
    (List.isPrefixOf ("non".data) (c :: cs) &&
      (let r := (c :: cs).drop 3
       List.isPrefixOf ("compete".data) r ||
         (match r with
          | d :: r2 => !(d == '\n') && List.isPrefixOf ("compete".data) r2
          | [] => false))) ||
    nonCompeteGo cs

/-- Leftmost case-insensitive occurrence of `non.?compete` (the `.`
wildcard excludes newlines). -/
def searchNonCompete (s : Chars) : Bool :=
  nonCompeteGo (toLowerStr s)

/-- The `(?i)^term\b|term and termination|termination` rule. -/
def matchesTermRule (header : Chars) : Bool :=
  let low := toLowerStr header
  (List.isPrefixOf ("term".data) low &&
    (match low.drop 4 with
     | [] => true
     | c :: _ => !charIsWord c)) ||
  hasSubstrCI header ("term and termination".data) ||
  hasSubstrCI header ("termination".data)

def isLowerDigit (c : Char) : Bool := charIsLower c || charIsDigit c

/-- Worker for `collapseNonAlnum`; the fuel only makes the recursion
structural, every step consumes at least one character. -/
def collapseNonAlnumGo : ℕ → Chars → Chars
  | _, [] => []
  | 0, s => s
  | fuel + 1, c :: cs =>
    if isLowerDigit c then c :: collapseNonAlnumGo fuel cs
    else '_' :: collapseNonAlnumGo fuel (cs.dropWhile (fun d => !isLowerDigit d))

/-- Collapse every run of characters outside `[a-z0-9]` to one `_`
(`re.sub(r"[^a-z0-9]+", "_", ...)`). -/
def collapseNonAlnum (s : Chars) : Chars :=
  collapseNonAlnumGo s.length s

/-- The slug fallback of `_identify_clause`. -/
def slugify (header : Chars) : Chars :=
  stripUnderscores (collapseNonAlnum (pyStrip (toLowerStr header)))

/-- `_identify_clause` from `document_store.py`: the ordered
`_SECTION_PATTERNS` rules, first match winning, then the slug fallback. -/
def _identify_clause (header : Chars) : Chars :=
  if hasSubstrCI header ("confidential".data) then "confidentiality".data
  else if searchNonCompete header ||
      hasSubstrCI header ("restrictive covenant".data) then "non_compete".data
  else if hasSubstrCI header ("intellectual property".data) ||
      hasSubstrCI header ("ip assignment".data) ||
      hasSubstrCI header ("work product".data) then "ip_assignment".data
  else if hasSubstrCI header ("indemnif".data) then "indemnification".data
  else if hasSubstrCI header ("limitation of liability".data) ||
      hasSubstrCI header ("liability cap".data) then "liability_cap".data
  else if matchesTermRule header then "term".data
  else if hasSubstrCI header ("governing law".data) ||
      hasSubstrCI header ("dispute resolution".data) ||
      hasSubstrCI header ("jurisdiction".data) then "governing_law".data
  else if hasSubstrCI header ("general provisions".data) ||
      hasSubstrCI header ("miscellaneous".data) then "general".data
  else slugify header

/-- `re.search(r"(?i)(between|party|parties|corporation|individual|agreement)", s)`
as a Boolean. -/
def partyIndicative (s : Chars) : Bool :=
  hasSubstrCI s ("between".data) || hasSubstrCI s ("party".data) ||
    hasSubstrCI s ("parties".data) || hasSubstrCI s ("corporation".data) ||
    hasSubstrCI s ("individual".data) || hasSubstrCI s ("agreement".data)

/-- Index of the last newline in a list, if any. -/
def lastNlIndex (b : Chars) : Option ℕ :=
  match b.reverse.findIdx? (fun c => c == '\n') with
  | some j => some (b.length - 1 - j)
  | none => none

/-- Scanner for `re.split(r"\n\s*[-=]{3,}\s*\n", text)`: at a newline, a
maximal whitespace run, then at least three `-`/`=` characters, then the
trailing `\s*\n` consumes up to the last newline of the following
whitespace run (the longest-first backtracking of `\s*` before the final
`\n`).  `cur` holds the reversed current piece. -/
def hrSplitGo : ℕ → Chars → Chars → List Chars
  | _, [], cur => [cur.reverse]
  | 0, s, cur => [cur.reverse ++ s]
  | fuel + 1, c :: cs, cur =>
    if c == '\n' then
      let a := cs.takeWhile charIsWs
      let r2 := cs.drop a.length
      let d := r2.takeWhile (fun ch => ch == '-' || ch == '=')
      if 3 ≤ d.length then
        match lastNlIndex ((r2.drop d.length).takeWhile charIsWs) with
        | some i =>
          cur.reverse ::
            hrSplitGo fuel (cs.drop (a.length + d.length + i + 1)) []
        | none => hrSplitGo fuel cs (c :: cur)
      else hrSplitGo fuel cs (c :: cur)
    else hrSplitGo fuel cs (c :: cur)

/-- `re.split(r"\n\s*[-=]{3,}\s*\n", text)` from `load_document`.  The
fuel only makes the scan structural: every step consumes at least one
character, so `text.length` fuel never reaches the fallback. -/
def hrSplit (text : Chars) : List Chars := hrSplitGo text.length text []

/-- The global clause store: a Python dict from canonical clause key to
clause text, with insertion order. -/
abbrev ClauseMap := List (Chars × Chars)

/-- Python dict lookup. -/
def mapGet (m : ClauseMap) (k : Chars) : Option Chars :=
  (m.find? (fun p => p.1 == k)).map Prod.snd

/-- Python dict assignment: update in place, else append. -/
def mapSet : ClauseMap → Chars → Chars → ClauseMap
  | [], k, v => [(k, v)]
  | (k0, v0) :: rest, k, v =>
    if k0 == k then (k0, v) :: rest else (k0, v0) :: mapSet rest k v

/-- One iteration of `load_document`'s section loop. -/
def loadSection (m : ClauseMap) (sectionRaw : Chars) : ClauseMap :=
  let sect := pyStrip sectionRaw
  if sect.isEmpty then m
  else
    match reMatchNumberedSection sect with
    | some g2 =>
      let key := _identify_clause (pyStrip g2)
      match mapGet m key with
      | some old => mapSet m key (old ++ "\n\n".data ++ sect)
      | none => mapSet m key sect
    | none =>
      if partyIndicative sect then
        let existing := (mapGet m ("parties".data)).getD []
        mapSet m ("parties".data) (pyStrip (existing ++ "\n\n".data ++ sect))
      else m

/-- `load_document` from `document_store.py`: split on HR lines and fold
the section loop over a fresh store. -/
def load_document (text : Chars) : ClauseMap :=
  (hrSplit text).foldl loadSection []

/-- `_CLAUSE_ALIASES` from `document_store.py`. -/
def _CLAUSE_ALIASES : ClauseMap :=
  [("confidentiality".data, "confidentiality".data),
   ("confidential".data, "confidentiality".data),
   ("nda".data, "confidentiality".data),
   ("non_compete".data, "non_compete".data),
   ("non-compete".data, "non_compete".data),
   ("noncompete".data, "non_compete".data),
   ("non compete".data, "non_compete".data),
   ("restrictive covenant".data, "non_compete".data),
   ("ip_assignment".data, "ip_assignment".data),
   ("ip assignment".data, "ip_assignment".data),
   ("intellectual property".data, "ip_assignment".data),
   ("ip".data, "ip_assignment".data),
   ("work product".data, "ip_assignment".data),
   ("indemnification".data, "indemnification".data),
   ("indemnity".data, "indemnification".data),
   ("liability_cap".data, "liability_cap".data),
   ("liability cap".data, "liability_cap".data),
   ("limitation of liability".data, "liability_cap".data),
   ("liability".data, "liability_cap".data),
   ("term".data, "term".data),
   ("term and termination".data, "term".data),
   ("termination".data, "term".data),
   ("duration".data, "term".data),
   ("governing_law".data, "governing_law".data),
   ("governing law".data, "governing_law".data),
   ("jurisdiction".data, "governing_law".data),
   ("dispute resolution".data, "governing_law".data)]

/-- `_normalize_clause_name` from `document_store.py`. -/
def _normalize_clause_name (name : Chars) : Chars :=
  let lowered := pyStrip (toLowerStr name)
  match mapGet _CLAUSE_ALIASES lowered with
  | some k => k
  | none => lowered.map (fun c => if c == '-' || c == ' ' then '_' else c)

/-- `get_clause` from `document_store.py` (the store passed explicitly). -/
def get_clause (m : ClauseMap) (name : Chars) : Option Chars :=
  mapGet m (_normalize_clause_name name)

/- ------------------------------------------------------------------ -/
/- document_store.py — party names, redaction, summary, fields        -/
/- ------------------------------------------------------------------ -/

/-- One alternative of `(?:Corp|Inc|LLC|Ltd)[.,]`: the literal, then a
required `.` or `,`; on success the matched suffix including the
punctuation (backtracking from a failed `[.,]` moves to the next
alternative, which the caller does). -/
def litThenPunct (lit r : Chars) : Option Chars :=
  if lit.isPrefixOf r then
    match r.drop lit.length with
    | p :: _ => if p == '.' || p == ',' then some (lit ++ [p]) else none
    | [] => none
  else none

/-- The `(?:Corp|Inc|LLC|Ltd)[.,]` tail of `_strip_party_names`' company
pattern, alternatives in source order. -/
def companySuffixAlt (r : Chars) : Option Chars :=
  match litThenPunct ("Corp".data) r with
  | some g => some g
  | none =>
    match litThenPunct ("Inc".data) r with
    | some g => some g
    | none =>
      match litThenPunct ("LLC".data) r with
      | some g => some g
      | none => litThenPunct ("Ltd".data) r

/-- Matcher at one position for `([A-Z][a-z]+ (?:Corp|Inc|LLC|Ltd)[.,])`
(`_strip_party_names`' company pattern); the greedy `[a-z]+` run cannot
usefully backtrack because a literal space must follow it. -/
def tryStripCompanyAt : Chars → Option Chars
  | [] => none
  | c :: rest =>
    if charIsUpper c then
      let low := rest.takeWhile charIsLower
      if low.isEmpty then none
      else
        match rest.drop low.length with
        | ' ' :: r3 => (companySuffixAlt r3).map (fun suf => c :: low ++ ' ' :: suf)
        | _ => none
    else none

/-- `re.search` of the `_strip_party_names` company pattern, group 1. -/
def reSearchStripCompany (s : Chars) : Option Chars :=
  searchO tryStripCompanyAt s

/-- Matcher at one position for `([A-Z][a-z]+ [A-Z][a-z]+),? an individual`
(shared by `_strip_party_names` and `extract_parties`), returning group 1
(the two-word name, without the optional comma). -/
def tryIndividualAt : Chars → Option Chars
  | [] => none
  | c :: rest =>
    if charIsUpper c then
      let low1 := rest.takeWhile charIsLower
      if low1.isEmpty then none
      else
        match rest.drop low1.length with
        | ' ' :: c2 :: r4 =>
          if charIsUpper c2 then
            let low2 := r4.takeWhile charIsLower
            if low2.isEmpty then none
            else
              let r5 := r4.drop low2.length
              let r6 := match r5 with
                | ',' :: t => t
                | _ => r5
              if (" an individual".data).isPrefixOf r6 then
                some (c :: low1 ++ ' ' :: c2 :: low2)
              else none
          else none
        | _ => none
    else none

/-- `re.search(r"([A-Z][a-z]+ [A-Z][a-z]+),? an individual", s)`, group 1. -/
def reSearchIndividual (s : Chars) : Option Chars :=
  searchO tryIndividualAt s

/-- First of `Corp|Inc|LLC|Ltd|Corporation|Limited` that is a literal
prefix of `r` (source order; nothing after the alternation can fail, so no
backtracking re-enters it — in particular `Corporation` can never win over
its own prefix `Corp`, faithfully to the Python regex). -/
def extractSuffixAlt (r : Chars) : Option Chars :=
  if ("Corp".data).isPrefixOf r then some ("Corp".data)
  else if ("Inc".data).isPrefixOf r then some ("Inc".data)
  else if ("LLC".data).isPrefixOf r then some ("LLC".data)
  else if ("Ltd".data).isPrefixOf r then some ("Ltd".data)
  else if ("Corporation".data).isPrefixOf r then some ("Corporation".data)
  else if ("Limited".data).isPrefixOf r then some ("Limited".data)
  else none

/-- Backtracking split for `[a-zA-Z\s]+ (?:Corp|...)` in
`extract_parties`' company pattern: the greedy run is shortened from the
longest length down until a literal space and then a suffix alternative
follow.  `run` is the maximal `[a-zA-Z\s]` run of `rest`. -/
def bestCompanySplit (run rest : Chars) : Option Chars :=
  (List.range run.length).reverse.findSome? (fun l =>
    if 1 ≤ l then
      match rest.drop l with
      | ' ' :: r2 => (extractSuffixAlt r2).map (fun suf => rest.take l ++ ' ' :: suf)
      | _ => none
    else none)

/-- Matcher at one position for
`([A-Z][a-zA-Z\s]+ (?:Corp|Inc|LLC|Ltd|Corporation|Limited))[,.]?`
(`extract_parties`' company pattern), returning group 1 (the optional
trailing punctuation lies outside the group). -/
def tryExtractCompanyAt : Chars → Option Chars
  | [] => none
  | c :: rest =>
    if charIsUpper c then
      let run := rest.takeWhile (fun ch => charIsAlpha ch || charIsWs ch)
      (bestCompanySplit run rest).map (fun g => c :: g)
    else none

/-- `re.search` of the `extract_parties` company pattern, group 1. -/
def reSearchExtractCompany (s : Chars) : Option Chars :=
  searchO tryExtractCompanyAt s

/-- `\b` holds before the pattern (whose first character is a word
character) iff at text start or after a non-word character. -/
def boundaryBefore : Option Char → Bool
  | none => true
  | some p => !charIsWord p

/-- `\b` holds after the pattern (whose last character is a word
character) iff at text end or before a non-word character. -/
def boundaryAfterAt : Chars → Bool
  | [] => true
  | d :: _ => !charIsWord d

/-- Worker for `re.sub(r"\b(pat)\b", rep, s)` where `pat` is a literal
beginning and ending with word characters (as `the Company` and
`the Employee` do): scan left to right, replacing boundary-delimited
occurrences and resuming after them; `prev` is the previous original
character. -/
def subWordBoundGo (pat rep : Chars) : ℕ → Option Char → Chars → Chars
  | _, _, [] => []
  | 0, _, s => s
  | fuel + 1, prev, c :: cs =>
    if h : pat ≠ [] ∧ (pat.isPrefixOf (c :: cs) && boundaryBefore prev &&
        boundaryAfterAt ((c :: cs).drop pat.length)) = true then
      rep ++ subWordBoundGo pat rep fuel (some (pat.getLast h.1))
        ((c :: cs).drop pat.length)
    else
      c :: subWordBoundGo pat rep fuel (some c) cs

/-- `re.sub(r"\b(pat)\b", rep, s)` for the role-phrase generalisation.
The fuel only makes the scan structural, each step consuming at least one
character. -/
def subWordBound (s pat rep : Chars) : Chars :=
  subWordBoundGo pat rep s.length none s

/-- `_strip_party_names` from `document_store.py`: names found in the
`parties` entry by the two narrow patterns are replaced, then the role
phrases are generalised. -/
def _strip_party_names (m : ClauseMap) (text : Chars) : Chars :=
  let parties_text := (mapGet m ("parties".data)).getD []
  let t1 := match reSearchStripCompany parties_text with
    | some g => pyReplace text (rstripPunct g) ("Party A".data)
    | none => text
  let t2 := match reSearchIndividual parties_text with
    | some g => pyReplace t1 g ("Party B".data)
    | none => t1
  let t3 := subWordBound t2 ("the Company".data) ("Party A".data)
  subWordBound t3 ("the Employee".data) ("Party B".data)

/-- The dict `extract_parties` returns: present keys only. -/
structure Parties where
  company : Option Chars
  individual : Option Chars
deriving DecidableEq, Repr

/-- `extract_parties` from `document_store.py`: both searches run over the
newline-join of all clause values (the unused `parties_text` binding of
the source is dropped). -/
def extract_parties (m : ClauseMap) : Parties :=
  let full_text := joinWith ("\n".data) (m.map Prod.snd)
  { company := (reSearchExtractCompany full_text).map pyStrip
    individual := (reSearchIndividual full_text).map pyStrip }

/-- Header-line removal and body assembly of `get_clause_summary`
(steps before redaction): drop numbered-header and all-caps-title lines,
rejoin, and fall back to the original text if nothing remains. -/
def summaryBody (clause_text : Chars) : Chars :=
  let lines := splitNl clause_text
  let content := lines.filter (fun l => !reMatchHeaderNum l && !reMatchCapsTitle l)
  let body := pyStrip (joinWith ("\n".data) content)
  if body.isEmpty then clause_text else body

/-- The truncation step of `get_clause_summary`: within budget return the
stripped text; otherwise keep the first `max_words` words and either cut
at the last sentence end past the first quarter or append an ellipsis. -/
def summaryTruncate (sanitized : Chars) (max_words : ℕ) : Chars :=
  let words := pySplitWs sanitized
  if words.length ≤ max_words then pyStrip sanitized
  else
    let truncated := joinSpace (words.take max_words)
    let last_sentence_end :=
      max (max (pyRfind truncated (". ".data)) (pyRfind truncated ("! ".data)))
        (pyRfind truncated ("? ".data))
    if ((truncated.length / 4 : ℕ) : ℤ) < last_sentence_end then
      pyStrip (truncated.take (last_sentence_end + 1).toNat)
    else pyStrip truncated ++ "...".data

/-- `get_clause_summary` from `document_store.py` (default budget 80). -/
def get_clause_summary (m : ClauseMap) (clause_name : Chars)
    (max_words : ℕ := 80) : Chars :=
  match get_clause m clause_name with
  | none => []
  | some clause_text =>
    if clause_text.isEmpty then []
    else summaryTruncate (_strip_party_names m (summaryBody clause_text)) max_words

/- ------------------------------------------------------------------ -/
/- document_store.py — get_field_from_clause                          -/
/- ------------------------------------------------------------------ -/

def charIsSentEnd (c : Char) : Bool := c == '.' || c == '!' || c == '?'

/-- Worker for `re.split(r"(?<=[.!?])\s+", s)`: a whitespace run preceded
(in the original text) by `.`/`!`/`?` separates pieces; `prev` tracks the
previous original character, `acc` the reversed current piece.  The fuel
only makes the recursion structural, each step consuming at least one
character. -/
def splitSentGo : ℕ → Option Char → Chars → Chars → List Chars
  | _, _, [], acc => [acc.reverse]
  | 0, _, s, acc => [acc.reverse ++ s]
  | fuel + 1, prev, c :: cs, acc =>
    if ((match prev with
         | some p => charIsSentEnd p
         | none => false) && charIsWs c) = true then
      acc.reverse ::
        splitSentGo fuel ((c :: cs.takeWhile charIsWs).getLast?)
          (cs.drop (cs.takeWhile charIsWs).length) []
    else splitSentGo fuel (some c) cs (c :: acc)

/-- `re.split(r"(?<=[.!?])\s+", s)`. -/
def reSplitSentences (s : Chars) : List Chars := splitSentGo s.length none s []

/-- Case-insensitive literal prefix (the literal given lowercased). -/
def ciPrefix (lit t : Chars) : Bool := lit.isPrefixOf (toLowerStr t)

/-- The spelled-number alternatives of the first duration pattern, in
source order. -/
def durationWords : List Chars :=
  ["twenty-four".data, "twenty four".data, "twelve".data, "six".data,
   "thirty-six".data, "thirty six".data, "two".data, "three".data]

/-- `(months?|years?|days?)` with `re.IGNORECASE`: the greedy optional `s`
makes the plural win when present.  Returns the matched length. -/
def tryUnitCI (t : Chars) : Option ℕ :=
  if ciPrefix ("months".data) t then some 6
  else if ciPrefix ("month".data) t then some 5
  else if ciPrefix ("years".data) t then some 5
  else if ciPrefix ("year".data) t then some 4
  else if ciPrefix ("days".data) t then some 4
  else if ciPrefix ("day".data) t then some 3
  else none

/-- Continuation `\s*(?:\(\d+\)\s*)?(months?|years?|days?)` after a
spelled number: if `(` follows the whitespace the optional group must
match fully (skipping it would leave the unit to start at `(`, which
fails), else the unit is matched directly.  Returns consumed length. -/
def tryDurationCont (r0 : Chars) : Option ℕ :=
  let a := r0.takeWhile charIsWs
  let r1 := r0.drop a.length
  match r1 with
  | '(' :: r2 =>
    let ds := r2.takeWhile charIsDigit
    if ds.isEmpty then none
    else
      match r2.drop ds.length with
      | ')' :: r3 =>
        let b := r3.takeWhile charIsWs
        (tryUnitCI (r3.drop b.length)).map
          (fun u => a.length + 1 + ds.length + 1 + b.length + u)
      | _ => none
  | _ => (tryUnitCI r1).map (fun u => a.length + u)

/-- Matcher at one position for the first duration pattern
`(twenty-four|twenty four|twelve|six|thirty-six|thirty six|two|three)\s*(?:\(\d+\)\s*)?(months?|years?|days?)`
(case-insensitive), returning the group-0 span. -/
def tryDuration1At (t : Chars) : Option Chars :=
  durationWords.findSome? (fun w =>
    if ciPrefix w t then
      (tryDurationCont (t.drop w.length)).map (fun n => t.take (w.length + n))
    else none)

/-- Matcher at one position for `(\d+)\s*(months?|years?|days?)`
(case-insensitive), returning the group-0 span. -/
def tryDuration2At (t : Chars) : Option Chars :=
  let ds := t.takeWhile charIsDigit
  if ds.isEmpty then none
  else
    let r1 := t.drop ds.length
    let a := r1.takeWhile charIsWs
    (tryUnitCI (r1.drop a.length)).map
      (fun u => t.take (ds.length + a.length + u))

/-- Matcher at one position for `(\d+)\s*mile\s*radius[^.]+\.`
(case-insensitive): after `radius`, the greedy `[^.]+` runs to the next
dot, which must exist and be preceded by at least one character. -/
def tryMileAt (t : Chars) : Option Chars :=
  let ds := t.takeWhile charIsDigit
  if ds.isEmpty then none
  else
    let r1 := t.drop ds.length
    let a := r1.takeWhile charIsWs
    let r2 := r1.drop a.length
    if ciPrefix ("mile".data) r2 then
      let r3 := r2.drop 4
      let b := r3.takeWhile charIsWs
      let r4 := r3.drop b.length
      if ciPrefix ("radius".data) r4 then
        let r5 := r4.drop 6
        let nd := r5.takeWhile (fun c => !(c == '.'))
        if nd.isEmpty then none
        else
          match r5.drop nd.length with
          | '.' :: _ =>
            some (t.take (ds.length + a.length + 4 + b.length + 6 + nd.length + 1))
          | _ => none
      else none
    else none

/-- After `(?:State of|in)` and `\s+`: `[A-Z][a-z]+` then an optional
greedy `(?:\s+[A-Z][a-z]+)?`.  Returns consumed length. -/
def tryStateName (r : Chars) : Option ℕ :=
  match r with
  | c :: r1 =>
    if charIsUpper c then
      let low1 := r1.takeWhile charIsLower
      if low1.isEmpty then none
      else
        let r2 := r1.drop low1.length
        let b := r2.takeWhile charIsWs
        let withSecond :=
          if b.isEmpty then none
          else
            match r2.drop b.length with
            | c2 :: r3 =>
              if charIsUpper c2 then
                let low2 := r3.takeWhile charIsLower
                if low2.isEmpty then none
                else some (1 + low1.length + b.length + 1 + low2.length)
              else none
            | [] => none
        match withSecond with
        | some n => some n
        | none => some (1 + low1.length)
    else none
  | [] => none

/-- Matcher at one position for
`(?:State of|in)\s+([A-Z][a-z]+(?:\s+[A-Z][a-z]+)?)` (case-sensitive),
returning the group-0 span. -/
def tryStateAt (t : Chars) : Option Chars :=
  let head :=
    if ("State of".data).isPrefixOf t then some 8
    else if ("in".data).isPrefixOf t then some 2
    else none
  match head with
  | some hn =>
    let r1 := t.drop hn
    let a := r1.takeWhile charIsWs
    if a.isEmpty then none
    else (tryStateName (r1.drop a.length)).map (fun n => t.take (hn + a.length + n))
  | none => none

/-- Matcher at one position for `\$[\d,]+(?:\.\d{2})?(?:\s*USD)?`,
returning the group-0 span. -/
def tryAmountAt (t : Chars) : Option Chars :=
  match t with
  | '$' :: r1 =>
    let dc := r1.takeWhile (fun c => charIsDigit c || c == ',')
    if dc.isEmpty then none
    else
      let r2 := r1.drop dc.length
      let centsLen :=
        match r2 with
        | '.' :: r3 =>
          if (r3.take 2).length == 2 && (r3.take 2).all charIsDigit then 3 else 0
        | _ => 0
      let r4 := r2.drop centsLen
      let a := r4.takeWhile charIsWs
      let usdLen :=
        if ("USD".data).isPrefixOf (r4.drop a.length) then a.length + 3 else 0
      some (t.take (1 + dc.length + centsLen + usdLen))
  | _ => none

/-- The `Key: Value` parts of the `parties` field, in the dict insertion
order of `extract_parties` (`company` first). -/
def partsRender (p : Parties) : List Chars :=
  (match p.company with
   | some v => ["Company: ".data ++ v]
   | none => []) ++
  (match p.individual with
   | some v => ["Individual: ".data ++ v]
   | none => [])

/-- `get_field_from_clause` from `document_store.py`. -/
def get_field_from_clause (m : ClauseMap) (clause_name field : Chars) : Chars :=
  match get_clause m clause_name with
  | none => "Clause '".data ++ clause_name ++ "' not found in document.".data
  | some clause_text =>
    if clause_text.isEmpty then
      "Clause '".data ++ clause_name ++ "' not found in document.".data
    else
      let fieldN := pyStrip (toLowerStr field)
      if fieldN == "duration".data then
        match searchO tryDuration1At clause_text with
        | some g => pyStrip g
        | none =>
          match searchO tryDuration2At clause_text with
          | some g => pyStrip g
          | none => "Duration not explicitly stated.".data
      else if fieldN == "scope".data then
        match searchO tryMileAt clause_text with
        | some g => pyStrip g
        | none =>
          match searchO tryStateAt clause_text with
          | some g => "Geographic scope: ".data ++ pyStrip g
          | none => "Scope details not found.".data
      else if fieldN == "amount".data then
        match searchO tryAmountAt clause_text with
        | some g => pyStrip g
        | none => "No monetary amount found.".data
      else if fieldN == "parties".data then
        let p := extract_parties m
        if p.company.isSome || p.individual.isSome then
          joinWith ("; ".data) (partsRender p)
        else "Parties not found.".data
      else if fieldN == "definition".data then
        match (reSplitSentences (pyStrip clause_text)).find?
            (fun sentence => 10 < word_count sentence) with
        | some sentence => pyStrip sentence
        | none => pyStrip (clause_text.take 300)
      else pyStrip (clause_text.take 300)

/- ------------------------------------------------------------------ -/
/- nda_tools.py — tool execution                                      -/
/- ------------------------------------------------------------------ -/

/-- `arguments.get(key, default)`. -/
def argGetD (args : List (Chars × Chars)) (k d : Chars) : Chars :=
  ((args.find? (fun p => p.1 == k)).map Prod.snd).getD d

/-- The names of the five tools of `NDA_TOOLS`, in catalog order. -/
def NDA_TOOL_NAMES : List Chars :=
  ["extract_parties".data, "get_clause_info".data, "summarize_clause".data,
   "check_enforceability".data, "benchmark_clause".data]

/-- `_exec_extract_parties` from `nda_tools.py`. -/
def _exec_extract_parties (m : ClauseMap) : Chars :=
  let parties := extract_parties m
  if !(parties.company.isSome || parties.individual.isSome) then
    "Could not extract party names from document.".data
  else
    let parts := partsRender parties
    if parts.isEmpty then "Parties not found.".data
    else joinWith ("; ".data) parts

/-- `_exec_get_clause_info` from `nda_tools.py` (the `field or
"definition"` fallback also catches an explicitly empty field; the
failure message interpolates the original `field`). -/
def _exec_get_clause_info (m : ClauseMap) (clause_type field : Chars) : Chars :=
  if clause_type.isEmpty then "Error: clause_type is required.".data
  else
    let result := get_field_from_clause m clause_type
      (if field.isEmpty then "definition".data else field)
    if result.isEmpty then
      "Could not find '".data ++ field ++ "' in ".data ++ clause_type ++
        " clause.".data
    else result

/-- `_exec_summarize_clause` from `nda_tools.py`. -/
def _exec_summarize_clause (m : ClauseMap) (clause_type : Chars) : Chars :=
  if clause_type.isEmpty then "Error: clause_type is required.".data
  else
    match get_clause m clause_type with
    | none => "Clause '".data ++ clause_type ++ "' not found in document.".data
    | some text =>
      if text.isEmpty then
        "Clause '".data ++ clause_type ++ "' not found in document.".data
      else
        let sentences := reSplitSentences (pyStrip text)
        let substantive := sentences.filter (fun s => 8 < word_count s)
        let summary_sentences := substantive.take 2
        if summary_sentences.isEmpty then pyStrip (text.take 300)
        else joinSpace summary_sentences

/-- `_exec_check_enforceability_context` from `nda_tools.py`. -/
def _exec_check_enforceability_context (m : ClauseMap)
    (clause_type jurisdiction : Chars) : Chars :=
  let summary := get_clause_summary m clause_type 80
  if summary.isEmpty then "Clause '".data ++ clause_type ++ "' not found.".data
  else
    "Clause type: ".data ++ clause_type ++ "\n".data ++
      "Jurisdiction: ".data ++ jurisdiction ++ "\n".data ++
      "Clause summary (anonymized): ".data ++ summary

/-- `_exec_benchmark_context` from `nda_tools.py`. -/
def _exec_benchmark_context (m : ClauseMap) (clause_type : Chars) : Chars :=
  let summary := get_clause_summary m clause_type 80
  if summary.isEmpty then "Clause '".data ++ clause_type ++ "' not found.".data
  else
    "Clause type: ".data ++ clause_type ++ "\n".data ++
      "Clause summary (anonymized): ".data ++ summary

/-- `execute_tool` from `nda_tools.py`.  The global store `ds.CLAUSES` is
threaded explicitly: the Python `if clauses: ds.CLAUSES = clauses`
replaces it exactly when the override is a non-empty dict (Python
truthiness), and every tool then reads the resulting store.  Returns the
result string together with the store after the call. -/
def execute_tool (tool_name : Chars) (arguments : List (Chars × Chars))
    (clauses : Option ClauseMap) (store : ClauseMap) : Chars × ClauseMap :=
  let st := match clauses with
    | some c => if c.isEmpty then store else c
    | none => store
  let result :=
    if tool_name == "extract_parties".data then _exec_extract_parties st
    else if tool_name == "get_clause_info".data then
      _exec_get_clause_info st (argGetD arguments ("clause_type".data) [])
        (argGetD arguments ("field".data) ("definition".data))
    else if tool_name == "summarize_clause".data then
      _exec_summarize_clause st (argGetD arguments ("clause_type".data) [])
    else if tool_name == "check_enforceability".data then
      _exec_check_enforceability_context st
        (argGetD arguments ("clause_type".data) [])
        (argGetD arguments ("jurisdiction".data) [])
    else if tool_name == "benchmark_clause".data then
      _exec_benchmark_context st (argGetD arguments ("clause_type".data) [])
    else "Unknown tool: ".data ++ tool_name
  (result, st)

/- ------------------------------------------------------------------ -/
/- Verification helpers                                               -/
/- ------------------------------------------------------------------ -/

/-- Number of word starts when scanning with boundary flag `b`
(`true`: at text start or after whitespace). -/
def wordStarts : Bool → Chars → ℕ
  | _, [] => 0
  | b, c :: cs => (if b && !charIsWs c then 1 else 0) + wordStarts (charIsWs c) cs

/-- Boundary flag after scanning `s`, starting from `b`. -/
def endB : Bool → Chars → Bool
  | b, [] => b
  | _, c :: cs => endB (charIsWs c) cs

/-- `b₀ ++ R ++ b₁ ++ R ++ ... ++ bₙ`: the shape of a textual-replacement
output, literal blocks interleaved with copies of the replacement. -/
def interR (R : Chars) : List Chars → Chars
  | [] => []
  | [b] => b
  | b :: bs@(_ :: _) => b ++ R ++ interR R bs

/-- The literal blocks of `pyReplaceGo old new fuel s` (independent of
the replacement text), with the same fuel discipline. -/
def replBlocks (old : Chars) : ℕ → Chars → List Chars
  | _, [] => [[]]
  | 0, s => [s]
  | fuel + 1, c :: cs =>
    if old ≠ [] ∧ old.isPrefixOf (c :: cs) then
      [] :: replBlocks old fuel ((c :: cs).drop old.length)
    else
      match replBlocks old fuel cs with
      | [] => [[c]]
      | b :: bs => (c :: b) :: bs

/-- The literal blocks of `subWordBoundGo pat rep fuel prev s`, with the
same fuel discipline. -/
def subBlocks (pat : Chars) : ℕ → Option Char → Chars → List Chars
  | _, _, [] => [[]]
  | 0, _, s => [s]
  | fuel + 1, prev, c :: cs =>
    if h : pat ≠ [] ∧ (pat.isPrefixOf (c :: cs) && boundaryBefore prev &&
        boundaryAfterAt ((c :: cs).drop pat.length)) = true then
      [] :: subBlocks pat fuel (some (pat.getLast h.1))
        ((c :: cs).drop pat.length)
    else
      match subBlocks pat fuel (some c) cs with
      | [] => [[c]]
      | b :: bs => (c :: b) :: bs

/-- Conditions under which replacing `P` by `R` can neither leave nor
re-create an occurrence of `P` across a replacement boundary: `P` is
nonempty, not an infix of `R` and vice versa, no nonempty proper prefix of
`P` is a suffix of `R`, and no nonempty proper suffix of `P` is a prefix
of `R`. -/
def SafeRepl (P R : Chars) : Prop :=
  P ≠ [] ∧ ¬ P <:+: R ∧ ¬ R <:+: P ∧
    (∀ k < P.length, 0 < k → ¬ P.take k <:+ R) ∧
    (∀ k < P.length, 0 < k → ¬ P.drop k <+: R)

instance (P R : Chars) : Decidable (SafeRepl P R) := by
  unfold SafeRepl; infer_instance

/- Concrete values used by witnesses and counterexamples. -/

/-- A local result with the Cactus handoff flag set. -/
def locHandoffEx : LocalResult :=
  { function_calls := [], total_time_ms := 5, confidence := 9 / 10,
    cloud_handoff := some true }

/-- A local result selecting a cloud-required tool at full confidence. -/
def locCloudToolEx : LocalResult :=
  { function_calls :=
      [{ name := "check_enforceability".data,
         arguments := [("clause_type".data, "non_compete".data)] }],
    total_time_ms := 4, confidence := 1, cloud_handoff := some false }

/-- A confident local result selecting a device tool. -/
def locDeviceEx : LocalResult :=
  { function_calls :=
      [{ name := "get_clause_info".data,
         arguments := [("clause_type".data, "term".data)] }],
    total_time_ms := 3, confidence := 72 / 100, cloud_handoff := some false }

/-- A remote result used in escalation examples. -/
def cloudEx : RemoteResult :=
  { function_calls :=
      [{ name := "benchmark_clause".data,
         arguments := [("clause_type".data, "non_compete".data)] }],
    total_time_ms := 7 }

/-- A one-clause store loaded before the calls of the dispatcher claims. -/
def storeEx : ClauseMap :=
  [("term".data, "The term lasts two years.".data)]

/-- A non-empty clause-map override. -/
def overrideEx : ClauseMap :=
  [("parties".data, "Between A and B.".data)]

/-- A store whose `non_compete` clause has two long sentences and a short
heading fragment. -/
def storeNC : ClauseMap :=
  [("non_compete".data,
    ("1. NON-COMPETE COVENANT\n\nJane Roe agrees that the Employee shall " ++
     "not compete with Acme Corporation for a period of twenty-four " ++
     "months after termination. The restriction binds Jane Roe inside a " ++
     "fifty mile radius of the office at all times.").data)]

/-- A raw NDA text whose only clause mentions an individual outside any
`parties` section. -/
def docNoParties : Chars :=
  ("1. TERM AND TERMINATION\n\nJohn Smith, an individual, agrees that " ++
   "the term shall last two years.").data

/-- A clause map with a `parties` entry naming an individual and a `term`
clause mentioning both the individual and the role phrase. -/
def mapWithParties : ClauseMap :=
  [("parties".data, "Between Jane Roe, an individual and others.".data),
   ("term".data,
    "Jane Roe and the Company agree that the term lasts two years.".data)]

/-- A clause map whose `parties` entry names both a company and an
individual, both mentioned again in the `term` clause. -/
def mapBothParties : ClauseMap :=
  [("parties".data,
    "Between Zeta Corp., and Jane Roe, an individual.".data),
   ("term".data,
    "Zeta Corp. and Jane Roe agree that the term lasts two years.".data)]

/- ------------------------------------------------------------------ -/
/- Claim theorems                                                     -/
/- ------------------------------------------------------------------ -/

/-- C1: the hybrid router applies its rules in fixed priority order with
the first applicable rule winning: a set handoff flag forces escalation
regardless of confidence or selected tool; otherwise a cloud-required tool
in the function calls forces escalation even at confidence 1.0; otherwise
escalation happens exactly when confidence is strictly below the default
threshold, so confidence exactly 0.72 stays on-device. -/
theorem routing_priority_order (loc : LocalResult) (cloud : RemoteResult) :
    (handoffSet loc = true →
      (generate_hybrid loc cloud).source ≠ "on-device".data) ∧
    (handoffSet loc = false → requiresCloud loc.function_calls = true →
      (generate_hybrid loc cloud).source ≠ "on-device".data) ∧
    (handoffSet loc = false → requiresCloud loc.function_calls = false →
      ((generate_hybrid loc cloud).source ≠ "on-device".data ↔
        loc.confidence < 72 / 100)) ∧
    (handoffSet loc = false → requiresCloud loc.function_calls = false →
      loc.confidence = 72 / 100 →
      (generate_hybrid loc cloud).source = "on-device".data) := by
  refine ⟨fun h1 => ?_, fun h1 h2 => ?_, fun h1 h2 => ?_, fun h1 h2 h3 => ?_⟩
  · simp only [generate_hybrid, escalate, h1, if_true]
    decide
  · simp only [generate_hybrid, escalate, h1, h2, if_true, Bool.false_eq_true,
      if_false]
    decide
  · by_cases hc : loc.confidence < 72 / 100
    · have hs : (generate_hybrid loc cloud).source =
          "cloud (low confidence)".data := by
        simp only [generate_hybrid, escalate, h1, h2, hc, if_true,
          Bool.false_eq_true, if_false]
      rw [hs]
      exact iff_of_true (by decide) hc
    · have hs : (generate_hybrid loc cloud).source = "on-device".data := by
        simp only [generate_hybrid, escalate, h1, h2, hc, Bool.false_eq_true,
          if_false]
      rw [hs]
      exact iff_of_false (fun hne => hne rfl) hc
  · have hc : ¬ loc.confidence < 72 / 100 := by rw [h3]; exact lt_irrefl _
    simp only [generate_hybrid, escalate, h1, h2, hc, Bool.false_eq_true,
      if_false]

/-- Witness for C1: a confident device-tool result at confidence exactly
0.72 stays on-device. -/
theorem routing_priority_order_witness :
    (generate_hybrid locDeviceEx cloudEx).source = "on-device".data :=
  (routing_priority_order locDeviceEx cloudEx).2.2.2 (by decide) (by decide)
    (by norm_num [locDeviceEx])

/-- Counterexample to C2: on a handoff escalation the source label is
`"cloud (cactus handoff)"`, not the `"cloud (handoff)"` the claim states
(the tool and low-confidence labels differ likewise). -/
theorem provenance_labels_counterexample :
    (generate_hybrid locHandoffEx cloudEx).source ≠ "cloud (handoff)".data ∧
    (generate_hybrid locHandoffEx cloudEx).source =
      "cloud (cactus handoff)".data := by
  constructor
  · decide
  · decide

/-- C2 (amended): for every routed local result the provenance label is
exactly `"cloud (cactus handoff)"` on a handoff escalation,
`"cloud (legal knowledge required)"` on a cloud-required-tool escalation,
`"cloud (low confidence)"` on a below-threshold escalation, and
`"on-device"` when the local result is accepted. -/
theorem provenance_labels_amended (loc : LocalResult) (cloud : RemoteResult)
    (th : ℚ) :
    (handoffSet loc = true →
      (generate_hybrid loc cloud th).source = "cloud (cactus handoff)".data) ∧
    (handoffSet loc = false → requiresCloud loc.function_calls = true →
      (generate_hybrid loc cloud th).source =
        "cloud (legal knowledge required)".data) ∧
    (handoffSet loc = false → requiresCloud loc.function_calls = false →
      loc.confidence < th →
      (generate_hybrid loc cloud th).source = "cloud (low confidence)".data) ∧
    (handoffSet loc = false → requiresCloud loc.function_calls = false →
      ¬ loc.confidence < th →
      (generate_hybrid loc cloud th).source = "on-device".data) := by
  refine ⟨fun h1 => ?_, fun h1 h2 => ?_, fun h1 h2 h3 => ?_, fun h1 h2 h3 => ?_⟩
  · simp only [generate_hybrid, escalate, h1, if_true]
  · simp only [generate_hybrid, escalate, h1, h2, if_true, Bool.false_eq_true,
      if_false]
  · simp only [generate_hybrid, escalate, h1, h2, h3, if_true,
      Bool.false_eq_true, if_false]
  · simp only [generate_hybrid, escalate, h1, h2, h3, Bool.false_eq_true,
      if_false]

/-- Witness for the amended C2: a cloud-required tool call at confidence
1.0 is labelled `"cloud (legal knowledge required)"`. -/
theorem provenance_labels_amended_witness :
    (generate_hybrid locCloudToolEx cloudEx (72 / 100)).source =
      "cloud (legal knowledge required)".data :=
  (provenance_labels_amended locCloudToolEx cloudEx (72 / 100)).2.1
    (by decide) (by decide)

/-- C3: every escalated query returns the remote engine's function calls
(the local ones discarded), elapsed time equal to the sum of the remote
and local elapsed times, and the original local confidence preserved in
the separate `local_confidence` field. -/
theorem escalation_result_composition (loc : LocalResult)
    (cloud : RemoteResult) (th : ℚ)
    (hesc : handoffSet loc = true ∨ requiresCloud loc.function_calls = true ∨
      loc.confidence < th) :
    (generate_hybrid loc cloud th).function_calls = cloud.function_calls ∧
    (generate_hybrid loc cloud th).total_time_ms =
      cloud.total_time_ms + loc.total_time_ms ∧
    (generate_hybrid loc cloud th).local_confidence = some loc.confidence := by
  by_cases h1 : handoffSet loc = true
  · simp only [generate_hybrid, escalate, h1, if_true]
    exact ⟨trivial, trivial, trivial⟩
  · have h1f : handoffSet loc = false := by
      cases hx : handoffSet loc
      · rfl
      · exact absurd hx h1
    by_cases h2 : requiresCloud loc.function_calls = true
    · simp only [generate_hybrid, escalate, h1f, h2, if_true,
        Bool.false_eq_true, if_false]
      exact ⟨trivial, trivial, trivial⟩
    · have h2f : requiresCloud loc.function_calls = false := by
        cases hx : requiresCloud loc.function_calls
        · rfl
        · exact absurd hx h2
      have h3 : loc.confidence < th := by
        rcases hesc with h | h | h
        · exact absurd h h1
        · exact absurd h h2
        · exact h
      simp only [generate_hybrid, escalate, h1f, h2f, h3, if_true,
        Bool.false_eq_true, if_false]
      exact ⟨trivial, trivial, trivial⟩

/-- Witness for C3 at a concrete handoff escalation. -/
theorem escalation_result_composition_witness :
    (generate_hybrid locHandoffEx cloudEx (72 / 100)).function_calls =
      cloudEx.function_calls ∧
    (generate_hybrid locHandoffEx cloudEx (72 / 100)).total_time_ms =
      cloudEx.total_time_ms + locHandoffEx.total_time_ms ∧
    (generate_hybrid locHandoffEx cloudEx (72 / 100)).local_confidence =
      some locHandoffEx.confidence :=
  escalation_result_composition locHandoffEx cloudEx (72 / 100)
    (Or.inl (by decide))

/-- C4: an unparseable local inference output degrades to a
zero-confidence, empty-call local result (no exception), and routing it
escalates through the low-confidence rule for every threshold above 0. -/
theorem malformed_local_escalates (th : ℚ) (hth : 0 < th)
    (cloud : RemoteResult) :
    (generate_cactus none).confidence = 0 ∧
    (generate_cactus none).function_calls = [] ∧
    generate_hybrid (generate_cactus none) cloud th =
      escalate (generate_cactus none) cloud ("cloud (low confidence)".data) := by
  refine ⟨rfl, rfl, ?_⟩
  simp only [generate_hybrid, generate_cactus, handoffSet, requiresCloud,
    Option.getD, List.any_nil, Bool.false_eq_true, if_false, hth, if_true]

/-- Witness for C4 at the default threshold. -/
theorem malformed_local_escalates_witness :
    (generate_cactus none).confidence = 0 ∧
    (generate_cactus none).function_calls = [] ∧
    generate_hybrid (generate_cactus none) cloudEx (72 / 100) =
      escalate (generate_cactus none) cloudEx
        ("cloud (low confidence)".data) :=
  malformed_local_escalates (72 / 100) (by norm_num) cloudEx

/-- Counterexample to C7: for the unknown tool name `mystery` the
dispatcher returns `"Unknown tool: mystery"` (capital `U`), not the
`"unknown tool: mystery"` the claim states. -/
theorem unknown_tool_counterexample :
    (execute_tool ("mystery".data) [] none []).fst ≠
      "unknown tool: mystery".data ∧
    (execute_tool ("mystery".data) [] none []).fst =
      "Unknown tool: mystery".data := by
  constructor
  · decide
  · decide

/-- C7 (amended): for every tool name outside the five-tool catalog and
every argument mapping (and any override and store), the dispatcher
returns exactly `"Unknown tool: <name>"` with the given name substituted. -/
theorem unknown_tool_message (tool_name : Chars)
    (arguments : List (Chars × Chars)) (clauses : Option ClauseMap)
    (store : ClauseMap) (h : tool_name ∉ NDA_TOOL_NAMES) :
    (execute_tool tool_name arguments clauses store).fst =
      "Unknown tool: ".data ++ tool_name := by
  simp only [NDA_TOOL_NAMES, List.mem_cons, List.not_mem_nil, or_false,
    not_or] at h
  obtain ⟨h1, h2, h3, h4, h5⟩ := h
  simp only [execute_tool, beq_iff_eq, h1, h2, h3, h4, h5, if_false]

/-- Witness for the amended C7. -/
theorem unknown_tool_message_witness :
    (execute_tool ("mystery".data) [] none []).fst =
      "Unknown tool: ".data ++ "mystery".data :=
  unknown_tool_message ("mystery".data) [] none [] (by decide)

/-- Counterexample to C8: executing any tool with a non-empty clause-map
override replaces the shared clause store, so `execute` is not
side-effect-free. -/
theorem execute_tool_mutates_store :
    (execute_tool ("extract_parties".data) [] (some overrideEx) storeEx).snd ≠
      storeEx ∧
    (execute_tool ("extract_parties".data) [] (some overrideEx) storeEx).snd =
      overrideEx := by
  constructor
  · decide
  · decide

/-- C8 (amended): the dispatcher is a total function returning a result
string for every tool name, argument mapping, override and store, but it
is not side-effect-free: the shared clause store is left unchanged exactly
when the override is absent or empty, and is replaced by every non-empty
override. -/
theorem execute_tool_store_effect (tool_name : Chars)
    (arguments : List (Chars × Chars)) (store : ClauseMap) :
    (execute_tool tool_name arguments none store).snd = store ∧
    (execute_tool tool_name arguments (some []) store).snd = store ∧
    ∀ c : ClauseMap, c ≠ [] →
      (execute_tool tool_name arguments (some c) store).snd = c := by
  refine ⟨rfl, rfl, fun c hc => ?_⟩
  simp only [execute_tool, List.isEmpty_eq_true, hc, if_false]

/-- Witness for the amended C8. -/
theorem execute_tool_store_effect_witness :
    (execute_tool ("extract_parties".data) [] (some overrideEx) storeEx).snd =
      overrideEx :=
  (execute_tool_store_effect ("extract_parties".data) [] storeEx).2.2
    overrideEx (by decide)

/-- C10: an empty clause-map override leaves the shared store in place and
the call behaves exactly as with no override, reading whatever map was
previously loaded — so, concretely, summarising `term` with an empty
override against a stale loaded store answers from that store instead of
reporting clause-not-found. -/
theorem empty_override_uses_stale_store (tool_name : Chars)
    (arguments : List (Chars × Chars)) (store : ClauseMap) :
    execute_tool tool_name arguments (some []) store =
      execute_tool tool_name arguments none store ∧
    (execute_tool tool_name arguments (some []) store).snd = store ∧
    (execute_tool ("summarize_clause".data)
        [("clause_type".data, "term".data)] (some []) storeEx).fst ≠
      "Clause 'term' not found in document.".data := by
  refine ⟨rfl, rfl, ?_⟩
  decide

/-- Counterexample to C5: loading a document whose only clause names
`John Smith, an individual` outside any `parties` section, the §4.2
extraction rules detect the individual `John Smith`, yet the redacted
summary of the `term` clause still contains `John Smith` — the redactor
searches only the `parties` entry, not the extraction results. -/
theorem redaction_counterexample :
    (extract_parties (load_document docNoParties)).individual =
      some ("John Smith".data) ∧
    ("John Smith".data) <:+:
      get_clause_summary (load_document docNoParties) ("term".data) 80 := by
  constructor
  · decide
  · decide

/-- C9: for every clause present in the map, `summarize_clause` splits
the clause into sentences, discards those with eight or fewer words,
and returns the first two remaining sentences joined by a space — or the
stripped first 300 characters when no sentence qualifies — so the result
is at most two sentences, each with more than eight words, or that
fallback. -/
theorem summarize_clause_structure (m : ClauseMap) (clause_type text : Chars)
    (hct : clause_type ≠ []) (hget : get_clause m clause_type = some text)
    (hne : text ≠ []) :
    (_exec_summarize_clause m clause_type =
      if ((reSplitSentences (pyStrip text)).filter
            (fun s => 8 < word_count s)).take 2 = [] then
        pyStrip (text.take 300)
      else
        joinSpace (((reSplitSentences (pyStrip text)).filter
          (fun s => 8 < word_count s)).take 2)) ∧
    (((reSplitSentences (pyStrip text)).filter
        (fun s => 8 < word_count s)).take 2).length ≤ 2 ∧
    (∀ s ∈ ((reSplitSentences (pyStrip text)).filter
        (fun s => 8 < word_count s)).take 2, 8 < word_count s) := by
  refine ⟨?_, List.length_take_le 2 _, fun s hs => ?_⟩
  · have hcte : clause_type.isEmpty = false := by
      cases clause_type
      · exact absurd rfl hct
      · rfl
    have hte : text.isEmpty = false := by
      cases text
      · exact absurd rfl hne
      · rfl
    simp only [_exec_summarize_clause, hcte, Bool.false_eq_true, if_false,
      hget, hte]
    by_cases hempty : ((reSplitSentences (pyStrip text)).filter
        (fun s => 8 < word_count s)).take 2 = []
    · simp only [hempty, List.isEmpty_nil, if_true]
    · have : (((reSplitSentences (pyStrip text)).filter
          (fun s => 8 < word_count s)).take 2).isEmpty = false := by
        cases hx : ((reSplitSentences (pyStrip text)).filter
            (fun s => 8 < word_count s)).take 2
        · exact absurd hx hempty
        · rfl
      simp only [this, Bool.false_eq_true, if_false, hempty]
  · have hmem := List.mem_of_mem_take hs
    have := List.mem_filter.mp hmem
    exact of_decide_eq_true this.2

/-- Witness for C9 on a concrete store whose `non_compete` clause has a
short heading fragment and two long sentences. -/
theorem summarize_clause_structure_witness :
    (_exec_summarize_clause storeNC ("non_compete".data) =
      if ((reSplitSentences (pyStrip (storeNC.head!).2)).filter
            (fun s => 8 < word_count s)).take 2 = [] then
        pyStrip ((storeNC.head!).2.take 300)
      else
        joinSpace (((reSplitSentences (pyStrip (storeNC.head!).2)).filter
          (fun s => 8 < word_count s)).take 2)) ∧
    (((reSplitSentences (pyStrip (storeNC.head!).2)).filter
        (fun s => 8 < word_count s)).take 2).length ≤ 2 ∧
    (∀ s ∈ ((reSplitSentences (pyStrip (storeNC.head!).2)).filter
        (fun s => 8 < word_count s)).take 2, 8 < word_count s) :=
  summarize_clause_structure storeNC ("non_compete".data) (storeNC.head!).2
    (by decide) (by decide) (by decide)

/-- Scanning an append adds the word starts of both parts, the second
scanned from the boundary flag the first one ends with. -/
theorem wordStarts_append (b : Bool) (s t : Chars) :
    wordStarts b (s ++ t) = wordStarts b s + wordStarts (endB b s) t := by
  induction s generalizing b with
  | nil => simp [wordStarts, endB]
  | cons c cs ih => simp [wordStarts, endB, ih, Nat.add_assoc]

/-- A prefix has at most as many word starts. -/
theorem wordStarts_prefix_le (b : Bool) (s t : Chars) (h : s <+: t) :
    wordStarts b s ≤ wordStarts b t := by
  obtain ⟨r, rfl⟩ := h
  rw [wordStarts_append]
  exact Nat.le_add_right _ _

/-- Dropping leading whitespace keeps the word-start count. -/
theorem wordStarts_dropWhile_ws (s : Chars) :
    wordStarts true (s.dropWhile charIsWs) = wordStarts true s := by
  induction s with
  | nil => rfl
  | cons c cs ih =>
    simp only [List.dropWhile_cons]
    by_cases hc : charIsWs c
    · simp [hc, wordStarts, ih]
    · simp [hc, wordStarts]

/-- `rstripP` is Mathlib's `rdropWhile`. -/
theorem rstripP_eq_rdropWhile (p : Char → Bool) (l : Chars) :
    rstripP p l = List.rdropWhile p l := rfl

/-- Stripping cannot increase the word-start count. -/
theorem wordStarts_pyStrip_le (s : Chars) :
    wordStarts true (pyStrip s) ≤ wordStarts true s := by
  have h1 : pyStrip s <+: s.dropWhile charIsWs := by
    rw [pyStrip, rstripP_eq_rdropWhile]
    exact List.rdropWhile_prefix (p := charIsWs) _
  calc wordStarts true (pyStrip s)
      ≤ wordStarts true (s.dropWhile charIsWs) :=
        wordStarts_prefix_le _ _ _ h1
    _ = wordStarts true s := wordStarts_dropWhile_ws s

/-- Length of a whitespace split in terms of word starts, for both
accumulator states. -/
theorem pySplitWsAux_length (s : Chars) :
    (pySplitWsAux none s).length = wordStarts true s ∧
    ∀ w, (pySplitWsAux (some w) s).length = 1 + wordStarts false s := by
  induction s with
  | nil => exact ⟨rfl, fun _ => rfl⟩
  | cons c cs ih =>
    constructor
    · by_cases hc : charIsWs c
      · simp [pySplitWsAux, hc, wordStarts, ih.1]
      · simp [pySplitWsAux, hc, wordStarts, ih.2]
    · intro w
      by_cases hc : charIsWs c
      · simp [pySplitWsAux, hc, wordStarts, ih.1, Nat.add_comm]
      · simp [pySplitWsAux, hc, wordStarts, ih.2]

/-- `word_count` counts word starts. -/
theorem word_count_eq_wordStarts (s : Chars) :
    word_count s = wordStarts true s :=
  (pySplitWsAux_length s).1

/-- Every word produced by the whitespace split is whitespace-free
(stated for both accumulator states). -/
theorem pySplitWsAux_words_nonws (s : Chars) : ∀ (o : Option Chars),
    (∀ w, o = some w → ∀ x ∈ w, charIsWs x = false) →
    ∀ w ∈ pySplitWsAux o s, ∀ x ∈ w, charIsWs x = false := by
  induction s with
  | nil =>
    intro o ho w hw
    match o with
    | none => simp [pySplitWsAux] at hw
    | some v =>
      simp only [pySplitWsAux, List.mem_singleton] at hw
      subst hw
      intro x hx
      exact ho v rfl x (List.mem_reverse.mp hx)
  | cons c cs ih =>
    intro o ho w hw
    match o with
    | none =>
      by_cases hc : charIsWs c
      · rw [show pySplitWsAux none (c :: cs) = pySplitWsAux none cs by
          simp [pySplitWsAux, hc]] at hw
        exact ih none (fun v hv => Option.noConfusion hv) w hw
      · rw [show pySplitWsAux none (c :: cs) = pySplitWsAux (some [c]) cs by
          simp [pySplitWsAux, hc]] at hw
        refine ih (some [c]) ?_ w hw
        intro v hv x hx
        cases hv
        rcases List.mem_singleton.mp hx with rfl
        cases hx2 : charIsWs x
        · rfl
        · exact absurd (List.mem_singleton.mp hx ▸ hx2) (by simp [hc])
    | some v =>
      by_cases hc : charIsWs c
      · rw [show pySplitWsAux (some v) (c :: cs) =
            v.reverse :: pySplitWsAux none cs by simp [pySplitWsAux, hc]] at hw
        rcases List.mem_cons.mp hw with rfl | hw2
        · intro x hx
          exact ho v rfl x (List.mem_reverse.mp hx)
        · exact ih none (fun u hu => Option.noConfusion hu) w hw2
      · rw [show pySplitWsAux (some v) (c :: cs) =
            pySplitWsAux (some (c :: v)) cs by simp [pySplitWsAux, hc]] at hw
        refine ih (some (c :: v)) ?_ w hw
        intro u hu x hx
        cases hu
        rcases List.mem_cons.mp hx with rfl | hx2
        · cases hx3 : charIsWs x
          · rfl
          · exact absurd hx3 (by simp [hc])
        · exact ho v rfl x hx2

/-- Every word of `pySplitWs` is whitespace-free. -/
theorem pySplitWs_words (s : Chars) :
    ∀ w ∈ pySplitWs s, ∀ x ∈ w, charIsWs x = false :=
  pySplitWsAux_words_nonws s none (fun _ hv => Option.noConfusion hv)

/-- A whitespace-free string contains no word start when scanned from a
non-boundary flag. -/
theorem wordStarts_false_nonws (w : Chars)
    (h : ∀ x ∈ w, charIsWs x = false) : wordStarts false w = 0 := by
  induction w with
  | nil => rfl
  | cons c cs ih =>
    have hc := h c (List.mem_cons_self c cs)
    simp [wordStarts, hc, ih (fun x hx => h x (List.mem_cons_of_mem c hx))]

/-- A whitespace-free string holds at most one word start. -/
theorem wordStarts_le_one_nonws (b : Bool) (w : Chars)
    (h : ∀ x ∈ w, charIsWs x = false) : wordStarts b w ≤ 1 := by
  cases w with
  | nil => simp [wordStarts]
  | cons c cs =>
    have hc := h c (List.mem_cons_self c cs)
    have h0 := wordStarts_false_nonws cs
      (fun x hx => h x (List.mem_cons_of_mem c hx))
    cases b with
    | false => simp [wordStarts, hc, h0]
    | true => simp [wordStarts, hc, h0]

/-- Joining whitespace-free words with single spaces yields at most one
word per word joined. -/
theorem joinSpace_wordStarts_le (l : List Chars)
    (h : ∀ w ∈ l, ∀ x ∈ w, charIsWs x = false) :
    wordStarts true (joinSpace l) ≤ l.length := by
  induction l with
  | nil => simp [joinSpace, wordStarts]
  | cons w rest ih =>
    cases rest with
    | nil =>
      simpa [joinSpace] using
        wordStarts_le_one_nonws true w (h w (List.mem_cons_self w []))
    | cons w2 rest2 =>
      have hjs : joinSpace (w :: w2 :: rest2) =
          w ++ ' ' :: joinSpace (w2 :: rest2) := by
        simp [joinSpace]
      rw [hjs, wordStarts_append]
      have h1 : wordStarts true w ≤ 1 :=
        wordStarts_le_one_nonws true w (h w (List.mem_cons_self w _))
      have h2 : wordStarts (endB true w) (' ' :: joinSpace (w2 :: rest2)) =
          wordStarts true (joinSpace (w2 :: rest2)) := by
        simp [wordStarts, charIsWs]
      have h3 := ih (fun u hu x hx => h u (List.mem_cons_of_mem w hu) x hx)
      rw [h2]
      simp only [List.length_cons] at h3 ⊢
      omega

/-- The end-boundary flag is the whitespace status of the last character. -/
theorem endB_eq_getLast (s : Chars) (b : Bool) (h : s ≠ []) :
    endB b s = charIsWs (s.getLast h) := by
  induction s generalizing b with
  | nil => exact absurd rfl h
  | cons c cs ih =>
    cases cs with
    | nil => simp [endB, List.getLast]
    | cons d ds =>
      rw [show endB b (c :: d :: ds) = endB (charIsWs c) (d :: ds) from rfl]
      rw [ih (charIsWs c) (by simp)]
      congr 1

/-- The stripped string never ends in whitespace. -/
theorem pyStrip_getLast_not_ws (s : Chars) (h : pyStrip s ≠ []) :
    charIsWs ((pyStrip s).getLast h) = false := by
  have h2 := List.rdropWhile_last_not (p := charIsWs)
    (l := s.dropWhile charIsWs) h
  cases hx : charIsWs ((pyStrip s).getLast h)
  · rfl
  · exact absurd hx h2

/-- Truncation step bound: the produced summary has at most `max_words`
words whenever `max_words ≥ 1`. -/
theorem summaryTruncate_le (sanitized : Chars) (max_words : ℕ)
    (h1 : 1 ≤ max_words) :
    word_count (summaryTruncate sanitized max_words) ≤ max_words := by
  unfold summaryTruncate
  by_cases hle : (pySplitWs sanitized).length ≤ max_words
  · simp only [hle, if_true]
    calc word_count (pyStrip sanitized)
        = wordStarts true (pyStrip sanitized) := word_count_eq_wordStarts _
      _ ≤ wordStarts true sanitized := wordStarts_pyStrip_le _
      _ = word_count sanitized := (word_count_eq_wordStarts _).symm
      _ ≤ max_words := hle
  · simp only [hle, if_false]
    have hword_nonws : ∀ w ∈ (pySplitWs sanitized).take max_words,
        ∀ x ∈ w, charIsWs x = false :=
      fun w hw => pySplitWs_words sanitized w (List.mem_of_mem_take hw)
    have htrunc_le :
        wordStarts true (joinSpace ((pySplitWs sanitized).take max_words)) ≤
          max_words := by
      calc wordStarts true (joinSpace ((pySplitWs sanitized).take max_words))
          ≤ ((pySplitWs sanitized).take max_words).length :=
            joinSpace_wordStarts_le _ hword_nonws
        _ ≤ max_words := List.length_take_le _ _
    by_cases hcut : (((joinSpace ((pySplitWs sanitized).take max_words)).length
        / 4 : ℕ) : ℤ) <
        max (max (pyRfind (joinSpace ((pySplitWs sanitized).take max_words))
            (". ".data))
          (pyRfind (joinSpace ((pySplitWs sanitized).take max_words))
            ("! ".data)))
          (pyRfind (joinSpace ((pySplitWs sanitized).take max_words))
            ("? ".data))
    · simp only [hcut, if_true]
      calc word_count _ = wordStarts true _ := word_count_eq_wordStarts _
        _ ≤ wordStarts true (joinSpace ((pySplitWs sanitized).take max_words)) := by
            refine le_trans (wordStarts_pyStrip_le _) ?_
            exact wordStarts_prefix_le _ _ _ (List.take_prefix _ _)
        _ ≤ max_words := htrunc_le
    · simp only [hcut, if_false]
      rw [word_count_eq_wordStarts, wordStarts_append]
      rcases hs : pyStrip (joinSpace ((pySplitWs sanitized).take max_words))
        with _ | ⟨c, cs⟩
      · have hdots : wordStarts (endB true ([] : Chars)) ("...".data) = 1 := by
          decide
        rw [hdots]
        simpa using h1
      · have hne : pyStrip (joinSpace ((pySplitWs sanitized).take max_words)) ≠
            [] := by rw [hs]; simp
        have hlast := pyStrip_getLast_not_ws
          (joinSpace ((pySplitWs sanitized).take max_words)) hne
        have hend : endB true
            (pyStrip (joinSpace ((pySplitWs sanitized).take max_words))) =
            false := by
          rw [endB_eq_getLast _ true hne, hlast]
        rw [← hs, hend]
        have hdots0 : wordStarts false ("...".data) = 0 := by decide
        rw [hdots0]
        have := wordStarts_pyStrip_le
          (joinSpace ((pySplitWs sanitized).take max_words))
        omega

/-- C6: for every clause and every budget `max_words ≥ 1`, the summary
produced by `get_clause_summary` contains at most `max_words` words:
within budget the text is returned as-is, otherwise the first `max_words`
words are cut at the last sentence end past the first quarter or
ellipsis-terminated, neither of which exceeds the budget. -/
theorem summary_word_budget (m : ClauseMap) (clause_name : Chars)
    (max_words : ℕ) (h1 : 1 ≤ max_words) :
    word_count (get_clause_summary m clause_name max_words) ≤ max_words := by
  unfold get_clause_summary
  cases hg : get_clause m clause_name with
  | none => simp [word_count, pySplitWs, pySplitWsAux]
  | some t =>
    by_cases ht : t.isEmpty
    · simp [ht, word_count, pySplitWs, pySplitWsAux]
    · simp only [ht, Bool.false_eq_true, if_false]
      exact summaryTruncate_le _ _ h1

/-- Witness for C6 at the default budget on a concrete store. -/
theorem summary_word_budget_witness :
    word_count (get_clause_summary mapWithParties ("term".data) 80) ≤ 80 :=
  summary_word_budget mapWithParties ("term".data) 80 (by norm_num)

/-- An infix of an append lies in the left part, in the right part, or
straddles the boundary, splitting into a nonempty proper suffix of the
left part and a prefix of the right part. -/
theorem infix_append_split {P X Y : Chars} (h : P <:+: X ++ Y) :
    P <:+: X ∨ P <:+: Y ∨
      ∃ k, 0 < k ∧ k < P.length ∧ P.take k <:+ X ∧ P.drop k <+: Y := by
  obtain ⟨s, t, hst⟩ := h
  have hP : P = ((X ++ Y).drop s.length).take P.length := by
    rw [← hst, List.append_assoc, List.drop_left, List.take_left]
  by_cases h1 : s.length + P.length ≤ X.length
  · left
    have hi : s.length ≤ X.length := le_trans (Nat.le_add_right _ _) h1
    rw [List.drop_append_of_le_length hi] at hP
    have h2 : P.length ≤ (X.drop s.length).length := by
      simp only [List.length_drop]; omega
    rw [List.take_append_of_le_length h2] at hP
    rw [hP]
    exact ((List.take_prefix _ _).isInfix).trans
      ((List.drop_suffix _ _).isInfix)
  · by_cases h3 : X.length ≤ s.length
    · right; left
      have hdr : (X ++ Y).drop s.length = Y.drop (s.length - X.length) := by
        conv_lhs => rw [show s.length = X.length + (s.length - X.length) by
          omega]
        exact List.drop_append _
      rw [hdr] at hP
      rw [hP]
      exact ((List.take_prefix _ _).isInfix).trans
        ((List.drop_suffix _ _).isInfix)
    · right; right
      have hi : s.length ≤ X.length := by omega
      refine ⟨X.length - s.length, by omega, by omega, ?_, ?_⟩
      · have htk : P.take (X.length - s.length) = X.drop s.length := by
          rw [hP, List.take_take, min_eq_left (by omega),
            List.drop_append_of_le_length hi,
            List.take_append_of_le_length (by simp [List.length_drop])]
          exact List.take_of_length_le (by simp [List.length_drop])
        rw [htk]
        exact List.drop_suffix _ _
      · have hdk : P.drop (X.length - s.length) =
            Y.take (P.length - (X.length - s.length)) := by
          conv_lhs => rw [hP]
          rw [List.drop_take, List.drop_drop,
            show s.length + (X.length - s.length) = X.length by omega,
            List.drop_left]
        rw [hdk]
        exact List.take_prefix _ _

/-- A prefix of an append no longer than the left part is a prefix of the
left part. -/
theorem prefix_of_append_of_le {p x y : Chars} (h : p <+: x ++ y)
    (hl : p.length ≤ x.length) : p <+: x := by
  have hp := List.prefix_iff_eq_take.mp h
  rw [List.take_append_of_le_length hl] at hp
  rw [hp]
  exact List.take_prefix _ _

/-- A prefix of an append at least as long as the left part begins with
the left part. -/
theorem append_prefix_of_le {p x y : Chars} (h : p <+: x ++ y)
    (hl : x.length ≤ p.length) : x <+: p := by
  have hp := List.prefix_iff_eq_take.mp h
  have htk : p.take x.length = x := by
    rw [hp, List.take_take, min_eq_left hl]
    exact List.take_left x y
  rw [← htk]
  exact List.take_prefix _ _

/-- No occurrence of `P` can begin inside a replacement copy `R` or
straddle its start, given the `SafeRepl` side conditions. -/
theorem noOcc_R_append {P R rest : Chars}
    (hPR : ¬ P <:+: R)
    (hB : ∀ k < P.length, 0 < k → ¬ P.take k <:+ R)
    (hrest : ¬ P <:+: rest) : ¬ P <:+: R ++ rest := by
  intro h
  rcases infix_append_split h with h1 | h1 | ⟨k, hk0, hkP, hsuf, _⟩
  · exact hPR h1
  · exact hrest h1
  · exact hB k hkP hk0 hsuf

/-- `interR` over a list with at least two blocks. -/
theorem interR_cons₂ (R b b2 : Chars) (bs : List Chars) :
    interR R (b :: b2 :: bs) = b ++ (R ++ interR R (b2 :: bs)) := by
  simp [interR, List.append_assoc]

/-- `interR` commutes with extending the head block. -/
theorem interR_cons_head (R : Chars) (c : Char) (b : Chars)
    (bs : List Chars) :
    interR R ((c :: b) :: bs) = c :: interR R (b :: bs) := by
  cases bs <;> simp [interR]

/-- If every block is occurrence-free and the replacement satisfies the
`SafeRepl` side conditions, the interleaving is occurrence-free. -/
theorem interR_noOcc {P R : Chars} (hsafe : SafeRepl P R) :
    ∀ bs : List Chars, (∀ b ∈ bs, ¬ P <:+: b) → ¬ P <:+: interR R bs := by
  obtain ⟨hP, hPR, hRP, hB, hC⟩ := hsafe
  intro bs
  induction bs with
  | nil =>
    intro _ h
    rw [show interR R [] = [] by simp [interR]] at h
    exact hP (List.infix_nil.mp h)
  | cons b rest ih =>
    intro hb
    cases rest with
    | nil =>
      intro h
      rw [show interR R [b] = b by simp [interR]] at h
      exact hb b (List.mem_cons_self _ _) h
    | cons b2 rest2 =>
      intro h
      rw [interR_cons₂] at h
      have hrest : ¬ P <:+: interR R (b2 :: rest2) :=
        ih (fun x hx => hb x (List.mem_cons_of_mem _ hx))
      rcases infix_append_split h with h1 | h1 | ⟨k, hk0, hkP, _, hpre⟩
      · exact hb b (List.mem_cons_self _ _) h1
      · exact noOcc_R_append hPR hB hrest h1
      · by_cases hlen : (P.drop k).length ≤ R.length
        · exact hC k hkP hk0 (prefix_of_append_of_le hpre hlen)
        · have hRpref : R <+: P.drop k :=
            append_prefix_of_le hpre (by omega)
          exact hRP (hRpref.isInfix.trans (List.drop_suffix _ _).isInfix)

/-- The block list of a replacement scan is never empty. -/
theorem replBlocks_ne_nil (old : Chars) :
    ∀ fuel s, replBlocks old fuel s ≠ [] := by
  intro fuel s
  cases fuel with
  | zero => cases s <;> simp [replBlocks]
  | succ f =>
    cases s with
    | nil => simp [replBlocks]
    | cons c cs =>
      by_cases hm : old ≠ [] ∧ old.isPrefixOf (c :: cs)
      · simp [replBlocks, hm]
      · simp only [replBlocks, if_neg hm]
        rcases hx : replBlocks old f cs with _ | ⟨b, bs⟩ <;> simp

/-- Interleaving the blocks with the replacement text reassembles the
replacement scan's output. -/
theorem replBlocks_assemble (old new : Chars) :
    ∀ fuel s,
      interR new (replBlocks old fuel s) = pyReplaceGo old new fuel s := by
  intro fuel
  induction fuel with
  | zero =>
    intro s
    cases s <;> simp [replBlocks, pyReplaceGo, interR]
  | succ f ih =>
    intro s
    cases s with
    | nil => simp [replBlocks, pyReplaceGo, interR]
    | cons c cs =>
      by_cases hm : old ≠ [] ∧ old.isPrefixOf (c :: cs)
      · simp only [replBlocks, pyReplaceGo, if_pos hm]
        rcases hx : replBlocks old f ((c :: cs).drop old.length)
          with _ | ⟨b, bs⟩
        · exact absurd hx (replBlocks_ne_nil old f _)
        · rw [interR_cons₂, List.nil_append, ← hx, ih]
      · simp only [replBlocks, pyReplaceGo, if_neg hm]
        rcases hx : replBlocks old f cs with _ | ⟨b, bs⟩
        · exact absurd hx (replBlocks_ne_nil old f cs)
        · rw [show (match b :: bs with
              | [] => [[c]]
              | b :: bs => (c :: b) :: bs) = (c :: b) :: bs from rfl]
          rw [interR_cons_head, ← hx, ih]

/-- With enough fuel, every literal block of the replacement scan for
pattern `P` is occurrence-free (its head block is moreover a prefix of the
input): a whole occurrence inside a block would have been found by the
scanner at its own start position. -/
theorem replBlocks_noOcc (P : Chars) (hP : P ≠ []) :
    ∀ fuel s, s.length ≤ fuel →
      (∀ b, (replBlocks P fuel s).head? = some b → b <+: s) ∧
      (∀ b ∈ replBlocks P fuel s, ¬ P <:+: b) := by
  intro fuel
  induction fuel with
  | zero =>
    intro s hs
    have hsnil : s = [] := List.length_eq_zero.mp (Nat.le_zero.mp hs)
    subst hsnil
    constructor
    · intro b hb
      simp only [replBlocks, List.head?_cons, Option.some.injEq] at hb
      subst hb
      exact List.nil_prefix
    · intro b hb
      simp only [replBlocks, List.mem_singleton] at hb
      subst hb
      intro hinf
      exact hP (List.infix_nil.mp hinf)
  | succ f ih =>
    intro s hs
    cases s with
    | nil =>
      constructor
      · intro b hb
        simp only [replBlocks, List.head?_cons, Option.some.injEq] at hb
        subst hb
        exact List.nil_prefix
      · intro b hb
        simp only [replBlocks, List.mem_singleton] at hb
        subst hb
        intro hinf
        exact hP (List.infix_nil.mp hinf)
    | cons c cs =>
      simp only [List.length_cons] at hs
      by_cases hm : P ≠ [] ∧ P.isPrefixOf (c :: cs)
      · have hdrop : ((c :: cs).drop P.length).length ≤ f := by
          have hp1 : 1 ≤ P.length := List.length_pos.mpr hP
          simp only [List.length_drop, List.length_cons]
          omega
        obtain ⟨_, ihm⟩ := ih _ hdrop
        constructor
        · intro b hb
          simp only [replBlocks, if_pos hm, List.head?_cons,
            Option.some.injEq] at hb
          subst hb
          exact List.nil_prefix
        · intro b hb
          simp only [replBlocks, if_pos hm, List.mem_cons] at hb
          rcases hb with rfl | hb2
          · intro hinf
            exact hP (List.infix_nil.mp hinf)
          · exact ihm b hb2
      · obtain ⟨ihh, ihm⟩ := ih cs (by omega)
        rcases hx : replBlocks P f cs with _ | ⟨b0, bs0⟩
        · exact absurd hx (replBlocks_ne_nil P f cs)
        · have hb0 : b0 <+: cs := ihh b0 (by rw [hx]; rfl)
          have hcb : (c :: b0) <+: (c :: cs) :=
            List.cons_prefix_cons.mpr ⟨rfl, hb0⟩
          constructor
          · intro b hb
            simp only [replBlocks, if_neg hm, hx, List.head?_cons,
              Option.some.injEq] at hb
            subst hb
            exact hcb
          · intro b hb
            simp only [replBlocks, if_neg hm, hx, List.mem_cons] at hb
            rcases hb with rfl | hb2
            · intro hinf
              rcases List.infix_cons_iff.mp hinf with hpre | hinf2
              · exact hm ⟨hP,
                  List.isPrefixOf_iff_prefix.mpr (hpre.trans hcb)⟩
              · exact ihm b0 (by rw [hx]; exact List.mem_cons_self _ _) hinf2
            · exact ihm b (by rw [hx]; exact List.mem_cons_of_mem _ hb2)

/-- Replacing every occurrence of `P` under the `SafeRepl` conditions
leaves no occurrence of `P`. -/
theorem pyReplace_noOcc {P R : Chars} (hsafe : SafeRepl P R) (s : Chars) :
    ¬ P <:+: pyReplace s P R := by
  have hP := hsafe.1
  have hne : P.isEmpty = false := by
    cases P
    · exact absurd rfl hP
    · rfl
  rw [pyReplace]
  simp only [hne, Bool.false_eq_true, if_false]
  rw [← replBlocks_assemble]
  exact interR_noOcc hsafe _ ((replBlocks_noOcc P hP s.length s le_rfl).2)

/-- The block list of a word-boundary substitution scan is never empty. -/
theorem subBlocks_ne_nil (pat : Chars) :
    ∀ fuel prev s, subBlocks pat fuel prev s ≠ [] := by
  intro fuel prev s
  cases fuel with
  | zero => cases s <;> simp [subBlocks]
  | succ f =>
    cases s with
    | nil => simp [subBlocks]
    | cons c cs =>
      by_cases hm : pat ≠ [] ∧ (pat.isPrefixOf (c :: cs) &&
          boundaryBefore prev &&
          boundaryAfterAt ((c :: cs).drop pat.length)) = true
      · simp only [subBlocks, dif_pos hm]
        simp
      · simp only [subBlocks, dif_neg hm]
        rcases hx : subBlocks pat f (some c) cs with _ | ⟨b, bs⟩ <;> simp

/-- Interleaving the substitution blocks with the replacement text
reassembles the substitution scan's output. -/
theorem subBlocks_assemble (pat rep : Chars) :
    ∀ fuel prev s,
      interR rep (subBlocks pat fuel prev s) =
        subWordBoundGo pat rep fuel prev s := by
  intro fuel
  induction fuel with
  | zero =>
    intro prev s
    cases s <;> simp [subBlocks, subWordBoundGo, interR]
  | succ f ih =>
    intro prev s
    cases s with
    | nil => simp [subBlocks, subWordBoundGo, interR]
    | cons c cs =>
      by_cases hm : pat ≠ [] ∧ (pat.isPrefixOf (c :: cs) &&
          boundaryBefore prev &&
          boundaryAfterAt ((c :: cs).drop pat.length)) = true
      · simp only [subBlocks, subWordBoundGo, dif_pos hm]
        rcases hx : subBlocks pat f (some (pat.getLast hm.1))
            ((c :: cs).drop pat.length) with _ | ⟨b, bs⟩
        · exact absurd hx (subBlocks_ne_nil pat f _ _)
        · rw [interR_cons₂, List.nil_append, ← hx, ih]
      · simp only [subBlocks, subWordBoundGo, dif_neg hm]
        rcases hx : subBlocks pat f (some c) cs with _ | ⟨b, bs⟩
        · exact absurd hx (subBlocks_ne_nil pat f _ cs)
        · rw [show (match b :: bs with
              | [] => [[c]]
              | b :: bs => (c :: b) :: bs) = (c :: b) :: bs from rfl]
          rw [interR_cons_head, ← hx, ih]

/-- Every literal block of a substitution scan is a contiguous substring
of the input (the head block is a prefix of it). -/
theorem subBlocks_substring (pat : Chars) :
    ∀ fuel prev s,
      (∀ b, (subBlocks pat fuel prev s).head? = some b → b <+: s) ∧
      (∀ b ∈ subBlocks pat fuel prev s, b <:+: s) := by
  intro fuel
  induction fuel with
  | zero =>
    intro prev s
    cases s with
    | nil =>
      refine ⟨fun b hb => ?_, fun b hb => ?_⟩
      · simp only [subBlocks, List.head?_cons, Option.some.injEq] at hb
        subst hb
        exact List.nil_prefix
      · simp only [subBlocks, List.mem_singleton] at hb
        subst hb
        exact (List.nil_prefix).isInfix
    | cons c cs =>
      refine ⟨fun b hb => ?_, fun b hb => ?_⟩
      · simp only [subBlocks, List.head?_cons, Option.some.injEq] at hb
        subst hb
        exact List.prefix_refl _
      · simp only [subBlocks, List.mem_singleton] at hb
        subst hb
        exact List.infix_refl _
  | succ f ih =>
    intro prev s
    cases s with
    | nil =>
      refine ⟨fun b hb => ?_, fun b hb => ?_⟩
      · simp only [subBlocks, List.head?_cons, Option.some.injEq] at hb
        subst hb
        exact List.nil_prefix
      · simp only [subBlocks, List.mem_singleton] at hb
        subst hb
        exact (List.nil_prefix).isInfix
    | cons c cs =>
      by_cases hm : pat ≠ [] ∧ (pat.isPrefixOf (c :: cs) &&
          boundaryBefore prev &&
          boundaryAfterAt ((c :: cs).drop pat.length)) = true
      · obtain ⟨_, ihm⟩ := ih (some (pat.getLast hm.1))
          ((c :: cs).drop pat.length)
        refine ⟨fun b hb => ?_, fun b hb => ?_⟩
        · simp only [subBlocks, dif_pos hm, List.head?_cons,
            Option.some.injEq] at hb
          subst hb
          exact List.nil_prefix
        · simp only [subBlocks, dif_pos hm, List.mem_cons] at hb
          rcases hb with rfl | hb2
          · exact (List.nil_prefix).isInfix
          · exact (ihm b hb2).trans (List.drop_suffix _ _).isInfix
      · obtain ⟨ihh, ihm⟩ := ih (some c) cs
        rcases hx : subBlocks pat f (some c) cs with _ | ⟨b0, bs0⟩
        · exact absurd hx (subBlocks_ne_nil pat f _ cs)
        · have hb0 : b0 <+: cs := ihh b0 (by rw [hx]; rfl)
          have hcb : (c :: b0) <+: (c :: cs) :=
            List.cons_prefix_cons.mpr ⟨rfl, hb0⟩
          refine ⟨fun b hb => ?_, fun b hb => ?_⟩
          · simp only [subBlocks, dif_neg hm, hx, List.head?_cons,
              Option.some.injEq] at hb
            subst hb
            exact hcb
          · simp only [subBlocks, dif_neg hm, hx, List.mem_cons] at hb
            rcases hb with rfl | hb2
            · exact hcb.isInfix
            · exact (ihm b (by rw [hx]; exact List.mem_cons_of_mem _ hb2)).trans
                (List.suffix_cons c cs).isInfix

/-- A word-boundary substitution whose replacement satisfies the
`SafeRepl` conditions for `P` preserves the absence of `P`. -/
theorem subWordBound_preserves {P rep : Chars} (hsafe : SafeRepl P rep)
    (u pat : Chars) (hu : ¬ P <:+: u) : ¬ P <:+: subWordBound u pat rep := by
  rw [subWordBound, ← subBlocks_assemble]
  refine interR_noOcc hsafe _ ?_
  intro b hb hinf
  exact hu (hinf.trans ((subBlocks_substring pat u.length none u).2 b hb))

/-- The stripped string is a contiguous substring of the original. -/
theorem pyStrip_substring (s : Chars) : pyStrip s <:+: s := by
  have h1 : pyStrip s <+: s.dropWhile charIsWs := by
    rw [pyStrip, rstripP_eq_rdropWhile]
    exact List.rdropWhile_prefix (p := charIsWs) _
  exact h1.isInfix.trans (List.dropWhile_suffix charIsWs).isInfix

/-- A successful leftmost search succeeds at some start position. -/
theorem searchO_some {α : Type} (tryAt : Chars → Option α) :
    ∀ s r, searchO tryAt s = some r → ∃ t, tryAt t = some r := by
  intro s
  induction s with
  | nil => intro r h; exact ⟨[], h⟩
  | cons c cs ih =>
    intro r h
    simp only [searchO] at h
    rcases hx : tryAt (c :: cs) with _ | v
    · rw [hx] at h
      exact ih r h
    · rw [hx] at h
      exact ⟨c :: cs, by rw [hx]; exact h⟩

/-- The individual matcher only ever returns a nonempty group. -/
theorem tryIndividualAt_ne_nil : ∀ t P, tryIndividualAt t = some P → P ≠ [] := by
  intro t P h
  cases t with
  | nil => simp [tryIndividualAt] at h
  | cons c rest =>
    simp only [tryIndividualAt] at h
    repeat' split at h
    all_goals
      first
        | exact Option.noConfusion h
        | (injection h with h2; rw [← h2]; simp)

/-- The individual search only ever returns a nonempty group. -/
theorem reSearchIndividual_ne_nil (s P : Chars)
    (h : reSearchIndividual s = some P) : P ≠ [] := by
  obtain ⟨t, ht⟩ := searchO_some tryIndividualAt s P h
  exact tryIndividualAt_ne_nil t P ht

/-- Every literal block of a replacement scan is a contiguous substring
of the input (the head block is a prefix of it). -/
theorem replBlocks_substring (old : Chars) :
    ∀ fuel s,
      (∀ b, (replBlocks old fuel s).head? = some b → b <+: s) ∧
      (∀ b ∈ replBlocks old fuel s, b <:+: s) := by
  intro fuel
  induction fuel with
  | zero =>
    intro s
    cases s with
    | nil =>
      refine ⟨fun b hb => ?_, fun b hb => ?_⟩
      · simp only [replBlocks, List.head?_cons, Option.some.injEq] at hb
        subst hb
        exact List.nil_prefix
      · simp only [replBlocks, List.mem_singleton] at hb
        subst hb
        exact (List.nil_prefix).isInfix
    | cons c cs =>
      refine ⟨fun b hb => ?_, fun b hb => ?_⟩
      · simp only [replBlocks, List.head?_cons, Option.some.injEq] at hb
        subst hb
        exact List.prefix_refl _
      · simp only [replBlocks, List.mem_singleton] at hb
        subst hb
        exact List.infix_refl _
  | succ f ih =>
    intro s
    cases s with
    | nil =>
      refine ⟨fun b hb => ?_, fun b hb => ?_⟩
      · simp only [replBlocks, List.head?_cons, Option.some.injEq] at hb
        subst hb
        exact List.nil_prefix
      · simp only [replBlocks, List.mem_singleton] at hb
        subst hb
        exact (List.nil_prefix).isInfix
    | cons c cs =>
      by_cases hm : old ≠ [] ∧ old.isPrefixOf (c :: cs)
      · obtain ⟨_, ihm⟩ := ih ((c :: cs).drop old.length)
        refine ⟨fun b hb => ?_, fun b hb => ?_⟩
        · simp only [replBlocks, if_pos hm, List.head?_cons,
            Option.some.injEq] at hb
          subst hb
          exact List.nil_prefix
        · simp only [replBlocks, if_pos hm, List.mem_cons] at hb
          rcases hb with rfl | hb2
          · exact (List.nil_prefix).isInfix
          · exact (ihm b hb2).trans (List.drop_suffix _ _).isInfix
      · obtain ⟨ihh, ihm⟩ := ih cs
        rcases hx : replBlocks old f cs with _ | ⟨b0, bs0⟩
        · exact absurd hx (replBlocks_ne_nil old f cs)
        · have hb0 : b0 <+: cs := ihh b0 (by rw [hx]; rfl)
          have hcb : (c :: b0) <+: (c :: cs) :=
            List.cons_prefix_cons.mpr ⟨rfl, hb0⟩
          refine ⟨fun b hb => ?_, fun b hb => ?_⟩
          · simp only [replBlocks, if_neg hm, hx, List.head?_cons,
              Option.some.injEq] at hb
            subst hb
            exact hcb
          · simp only [replBlocks, if_neg hm, hx, List.mem_cons] at hb
            rcases hb with rfl | hb2
            · exact hcb.isInfix
            · exact (ihm b (by rw [hx]; exact List.mem_cons_of_mem _ hb2)).trans
                (List.suffix_cons c cs).isInfix

/-- Replacing a (nonempty) pattern by a replacement satisfying the
`SafeRepl` conditions for `N` preserves the absence of `N`. -/
theorem pyReplace_preserves {N rep : Chars} (hsafe : SafeRepl N rep)
    (u old : Chars) (hold : old ≠ []) (hu : ¬ N <:+: u) :
    ¬ N <:+: pyReplace u old rep := by
  have holde : old.isEmpty = false := by
    cases old
    · exact absurd rfl hold
    · rfl
  rw [pyReplace]
  simp only [holde, Bool.false_eq_true, if_false]
  rw [← replBlocks_assemble]
  refine interR_noOcc hsafe _ ?_
  intro b hb hinf
  exact hu (hinf.trans ((replBlocks_substring old u.length u).2 b hb))

/-- C5 (amended): the redactor replaces the names its own stripping rules
find in the `parties` clause, not those the §4.2 extraction finds across
the document.  Whenever the individual pattern matches name `P` there,
the untruncated summary never contains `P`, and whenever the company
pattern matches group `g` there, the untruncated summary never contains
the punctuation-stripped company name — each provided the name cannot be
re-formed across a placeholder boundary (`SafeRepl` with both
placeholders). -/
theorem redaction_amended (m : ClauseMap) (clause_name : Chars)
    (max_words : ℕ) (t : Chars)
    (hget : get_clause m clause_name = some t) (hne : t ≠ [])
    (hwb : (pySplitWs (_strip_party_names m (summaryBody t))).length ≤
      max_words) :
    (∀ P, reSearchIndividual ((mapGet m ("parties".data)).getD []) = some P →
      SafeRepl P ("Party A".data) → SafeRepl P ("Party B".data) →
      ¬ P <:+: get_clause_summary m clause_name max_words) ∧
    (∀ g, reSearchStripCompany ((mapGet m ("parties".data)).getD []) =
        some g →
      SafeRepl (rstripPunct g) ("Party A".data) →
      SafeRepl (rstripPunct g) ("Party B".data) →
      ¬ (rstripPunct g) <:+: get_clause_summary m clause_name max_words) := by
  have htne : t.isEmpty = false := by
    cases t
    · exact absurd rfl hne
    · rfl
  have hsummary : get_clause_summary m clause_name max_words =
      pyStrip (_strip_party_names m (summaryBody t)) := by
    unfold get_clause_summary
    rw [hget]
    simp only [htne, Bool.false_eq_true, if_false]
    unfold summaryTruncate
    rw [if_pos hwb]
  constructor
  · intro P hind hA hB
    have hsan : ¬ P <:+: _strip_party_names m (summaryBody t) := by
      simp only [_strip_party_names, hind]
      exact subWordBound_preserves hB _ _
        (subWordBound_preserves hA _ _ (pyReplace_noOcc hB _))
    rw [hsummary]
    intro h
    exact hsan (h.trans (pyStrip_substring _))
  · intro g hcomp hA hB
    have hsan : ¬ (rstripPunct g) <:+: _strip_party_names m (summaryBody t) := by
      simp only [_strip_party_names, hcomp]
      have h1 : ¬ (rstripPunct g) <:+:
          pyReplace (summaryBody t) (rstripPunct g) ("Party A".data) :=
        pyReplace_noOcc hA _
      have h2 : ¬ (rstripPunct g) <:+:
          (match reSearchIndividual ((mapGet m ("parties".data)).getD []) with
           | some p =>
             pyReplace (pyReplace (summaryBody t) (rstripPunct g)
               ("Party A".data)) p ("Party B".data)
           | none =>
             pyReplace (summaryBody t) (rstripPunct g) ("Party A".data)) := by
        rcases hi : reSearchIndividual ((mapGet m ("parties".data)).getD [])
          with _ | P
        · exact h1
        · exact pyReplace_preserves hB _ P
            (reSearchIndividual_ne_nil _ P hi) h1
      exact subWordBound_preserves hB _ _
        (subWordBound_preserves hA _ _ h2)
    rw [hsummary]
    intro h
    exact hsan (h.trans (pyStrip_substring _))

/-- Witness for the amended C5 on a clause map whose `parties` entry
names both `Zeta Corp.` and `Jane Roe, an individual`: neither name
survives in the summary. -/
theorem redaction_amended_witness :
    ¬ ("Jane Roe".data) <:+:
      get_clause_summary mapBothParties ("term".data) 80 ∧
    ¬ (rstripPunct ("Zeta Corp.".data)) <:+:
      get_clause_summary mapBothParties ("term".data) 80 := by
  constructor
  · exact (redaction_amended mapBothParties ("term".data) 80
      ("Zeta Corp. and Jane Roe agree that the term lasts two years.".data)
      (by decide) (by decide) (by decide)).1 ("Jane Roe".data)
      (by decide) (by decide) (by decide)
  · exact (redaction_amended mapBothParties ("term".data) 80
      ("Zeta Corp. and Jane Roe agree that the term lasts two years.".data)
      (by decide) (by decide) (by decide)).2 ("Zeta Corp.".data)
      (by decide) (by decide) (by decide)
